import Mathlib

/-!
Verification of the kvs log-structured key-value store (src/src/kvstore.rs,
client.rs, thread_pool/) against its natural-language specification.

The storage engine (the `ArcSwap`-based `KvStore` of kvstore.rs) is shallowly
embedded as a pure state machine.  The on-disk data directory is modelled as an
association list from segment-file id to the list of log records the file
contains, in append order.  Byte offsets and record lengths are computed from
`encLen`, the exact byte length of the serde_json encoding of a record, so the
offset/length arithmetic of the writer (`append_log`), the open-time replay and
the segment-cap rolling logic are reproduced faithfully.  Seeking to a byte
offset and stream-decoding one record (`Readers::read_value`) is modelled by
`decodeAt`, which walks the record list with the cumulative encoded lengths:
seeking exactly to the start of the i-th record yields that record, seeking to
end of file yields `eof`, and seeking into the middle of a record yields
`malformed` (a serde decode error in the source).

The model corresponds to the test profile of the source (`IS_TEST = true`):
every mutation flushes (`writer.file.flush()` after each Set/Rm), so a write is
immediately visible to readers, and the constants are the test constants
`MAX_DATA_FILE_SIZE = 0x1000`, `COMPACT_THRESHOLD = 0x2000`.

Rust panics (`assert!`, `unreachable!`, `unwrap` on `Err`) are modelled by a
distinguished `panicked` outcome; `Result::Err` returns are modelled by `err`
carrying the error variant, together with the store state at the moment of the
error (the handle survives an `Err` and later operations continue from that
state).
-/

namespace Kvs

/-- Log record, mirroring `enum Command` in src/src/kvstore.rs:
`Set { key, value }` and `Rm { key }`. -/
inductive Command where
  | set (key value : String)
  | rm (key : String)
deriving DecidableEq, Repr

/-- Error variants of `enum Error` in src/src/error.rs that the modelled code
can produce (payloads dropped). -/
inductive KvsError where
  | ioError
  | removeNonexistKey
  | serdeError
  | decodeError
  | zeroSizedPool
deriving DecidableEq, Repr

/-- Outcome of one Rust call: `Ok`, `Err`, or a panic
(`assert!` / `unreachable!` / `unwrap`). -/
inductive Out (α : Type) where
  | ok (a : α)
  | err (e : KvsError)
  | panicked
deriving DecidableEq, Repr

/-- Number of bytes serde_json emits for one character appearing inside a JSON
string literal: quote and backslash become two-byte escapes, the control
characters BS, TAB, LF, FF, CR become two-byte short escapes, the remaining
control characters below 0x20 become six-byte `\u00XX` escapes, and every other
character is written as its UTF-8 bytes. -/
def escLen (c : Char) : Nat :=
  let n := c.toNat
  if n = 34 ∨ n = 92 then 2
  else if n < 32 then
    (if n = 8 ∨ n = 9 ∨ n = 10 ∨ n = 12 ∨ n = 13 then 2 else 6)
  else c.utf8Size

/-- Byte length of the serde_json encoding of a string, including the two
surrounding quotes. -/
def jsonStrLen (s : String) : Nat := 2 + (s.data.map escLen).sum

/-- Byte length of `serde_json::to_vec(&command)`.  A Set serializes as the
externally tagged object with the literal skeleton of 25 bytes plus the two
quoted strings; an Rm has a 15-byte skeleton plus the quoted key. -/
def encLen : Command → Nat
  | .set k v => 25 + jsonStrLen k + jsonStrLen v
  | .rm k => 15 + jsonStrLen k

/-- Total byte length of a data file holding the given records. -/
def fileSize (f : List Command) : Nat := (f.map encLen).sum

/-- Result of seeking to a byte offset in a data file and stream-decoding one
record with `Deserializer::from_reader(..).into_iter()`. -/
inductive ReadResult where
  | record (c : Command)
  | eof
  | malformed
deriving DecidableEq, Repr

/-- Decode one record at byte offset `off` of a file: the offset of the i-th
record is the sum of the encoded lengths of the records before it. -/
def decodeAt : List Command → Nat → ReadResult
  | [], _ => .eof
  | c :: rest, off =>
    if off = 0 then .record c
    else if off < encLen c then .malformed
    else decodeAt rest (off - encLen c)

section Assoc

variable {α : Type} {β : Type} [DecidableEq α]

/-- Lookup in an association list (model of `DashMap`/`HashMap` lookup). -/
def alookup : List (α × β) → α → Option β
  | [], _ => none
  | (a, b) :: rest, x => if a = x then some b else alookup rest x

/-- Insert-or-replace in an association list, returning the previous value if
any (model of `DashMap::insert`). -/
def aupsert : List (α × β) → α → β → Option β × List (α × β)
  | [], x, y => (none, [(x, y)])
  | (a, b) :: rest, x, y =>
    if a = x then (some b, (x, y) :: rest)
    else
      let r := aupsert rest x y
      (r.1, (a, b) :: r.2)

/-- Remove from an association list, returning the removed value if any
(model of `DashMap::remove`). -/
def aremove : List (α × β) → α → Option β × List (α × β)
  | [], _ => (none, [])
  | (a, b) :: rest, x =>
    if a = x then (some b, rest)
    else
      let r := aremove rest x
      (r.1, (a, b) :: r.2)

/-- Modify the value stored at a key, leaving the list unchanged if the key is
absent. -/
def amodify : List (α × β) → α → (β → β) → List (α × β)
  | [], _, _ => []
  | (a, b) :: rest, x, g =>
    if a = x then (a, g b) :: rest else (a, b) :: amodify rest x g

end Assoc

/-- Placement of one record: `struct CommandMeta` in src/src/kvstore.rs. -/
structure CommandMeta where
  fileId : Nat
  fileOffset : Nat
  len : Nat
deriving DecidableEq, Repr

/-- The in-memory key directory: key to placement of the live Set record. -/
abbrev KeyDir := List (String × CommandMeta)

/-- The data directory on disk: segment-file id to record list. -/
abbrev Disk := List (Nat × List Command)

/-- Contents of a data file, empty if the file does not exist. -/
def diskGetD (d : Disk) (fid : Nat) : List Command := (alookup d fid).getD []

/-- Whether the data file `<fid>.dat` exists in the directory. -/
def diskHas (d : Disk) (fid : Nat) : Bool := (alookup d fid).isSome

/-- Append one record to an existing data file. -/
def diskAppend (d : Disk) (fid : Nat) (c : Command) : Disk :=
  amodify d fid (fun f => f ++ [c])

/-- Create a fresh empty data file. -/
def diskCreate (d : Disk) (fid : Nat) : Disk := d ++ [(fid, [])]

/-- Delete a data file. -/
def diskRemove (d : Disk) (fid : Nat) : Disk := (aremove d fid).2

/-- Handle-local reader state: `struct Readers` in src/src/kvstore.rs.
`files` is the set of segment ids whose reader is cached. -/
structure Readers where
  localVersion : Nat
  files : List Nat
deriving DecidableEq, Repr

/-- One `KvStore` handle together with the shared state and the data directory
it operates on.  `currFileId`, `uselessSize` and `pos` are the fields of
`struct Writer` (`pos` models `BufWriter::file_offset`, the append position of
the current segment); `keyDir` is the atomically published index;
`globalVersion` is the compaction version counter. -/
structure KvStore where
  disk : Disk
  currFileId : Nat
  pos : Nat
  uselessSize : Nat
  keyDir : KeyDir
  readers : Readers
  globalVersion : Nat
deriving DecidableEq, Repr

/-- Test profile flag: the crate is compiled with `IS_TEST = true` in the test
profile, which both picks the small constants and forces a flush after every
mutation, making writes immediately visible to readers (the visibility this
pure model assumes). -/
def IS_TEST : Bool := true

/-- Segment size cap, `const MAX_DATA_FILE_SIZE` in src/src/kvstore.rs. -/
def MAX_DATA_FILE_SIZE : Nat := if IS_TEST then 0x1000 else 0x1000000

/-- Compaction threshold, `const COMPACT_THRESHOLD` in src/src/kvstore.rs. -/
def COMPACT_THRESHOLD : Nat := if IS_TEST then 0x2000 else 0x200000

/-- `Writer::create_new_data_file`: increment `curr_file_id`, create the fresh
segment with `BufWriter::create_new` (which fails if the file already exists),
and reset the append position to 0. -/
def createNewDataFile (s : KvStore) : Out Unit × KvStore :=
  let id := s.currFileId + 1
  if diskHas s.disk id then (.err .ioError, { s with currFileId := id })
  else (.ok (), { s with currFileId := id, disk := diskCreate s.disk id, pos := 0 })

/-- `Writer::append_log`: serialize the command, `assert!` it fits in a
segment, roll to a new segment if appending would exceed the cap (note the
source increments `curr_file_id` once in `append_log` and a second time inside
`create_new_data_file`), write the record, and return its placement. -/
def appendLog (s : KvStore) (c : Command) : Out CommandMeta × KvStore :=
  let fileOffset := s.pos
  let len := encLen c
  if len ≤ MAX_DATA_FILE_SIZE then
    if len + fileOffset > MAX_DATA_FILE_SIZE then
      match createNewDataFile { s with currFileId := s.currFileId + 1 } with
      | (.ok _, s1) =>
        (.ok ⟨s1.currFileId, 0, len⟩,
         { s1 with disk := diskAppend s1.disk s1.currFileId c, pos := len })
      | (.err e, s1) => (.err e, s1)
      | (.panicked, s1) => (.panicked, s1)
    else
      (.ok ⟨s.currFileId, fileOffset, len⟩,
       { s with disk := diskAppend s.disk s.currFileId c, pos := fileOffset + len })
  else (.panicked, s)

/-- `Readers::read_value`: clear the handle-local reader cache if a compaction
has advanced the global version, open (and cache) the segment file if it is not
cached yet, seek to the offset and decode one record.  A Set yields its value;
decoding an Rm or hitting end of file are the `unreachable!()` branches, and a
malformed record is a serde error. -/
def readValue (s : KvStore) (fileId fileOffset : Nat) : Out String × KvStore :=
  let rs : Readers :=
    if s.globalVersion > s.readers.localVersion then ⟨s.globalVersion, []⟩
    else s.readers
  if fileId ∈ rs.files ∨ diskHas s.disk fileId then
    let rs2 : Readers :=
      if fileId ∈ rs.files then rs else { rs with files := fileId :: rs.files }
    let s2 := { s with readers := rs2 }
    match decodeAt (diskGetD s2.disk fileId) fileOffset with
    | .record (.set _ v) => (.ok v, s2)
    | .record (.rm _) => (.panicked, s2)
    | .eof => (.panicked, s2)
    | .malformed => (.err .serdeError, s2)
  else (.err .ioError, { s with readers := rs })

/-- `KvsEngine::get` for `KvStore`: consult the published key directory; absent
keys yield `Ok(None)`, present keys are read from disk. -/
def KvStore.get (s : KvStore) (key : String) : Out (Option String) × KvStore :=
  match alookup s.keyDir key with
  | none => (.ok none, s)
  | some m =>
    match readValue s m.fileId m.fileOffset with
    | (.ok v, s2) => (.ok (some v), s2)
    | (.err e, s2) => (.err e, s2)
    | (.panicked, s2) => (.panicked, s2)

/-- The per-entry body of the rewrite loop of `KvStore::compact`: read the live
value at the old placement, append a fresh Set record, and replace the
placement in the new key directory (the loop runs over the cloned directory
with `iter_mut`). -/
def compactLoop (s : KvStore) : KeyDir → Out KeyDir × KvStore
  | [] => (.ok [], s)
  | (k, m) :: rest =>
    match readValue s m.fileId m.fileOffset with
    | (.ok v, s1) =>
      match appendLog s1 (.set k v) with
      | (.ok m2, s2) =>
        match compactLoop s2 rest with
        | (.ok tail, s3) => (.ok ((k, m2) :: tail), s3)
        | (.err e, s3) => (.err e, s3)
        | (.panicked, s3) => (.panicked, s3)
      | (.err e, s2) => (.err e, s2)
      | (.panicked, s2) => (.panicked, s2)
    | (.err e, s1) => (.err e, s1)
    | (.panicked, s1) => (.panicked, s1)

/-- The deletion loop of `KvStore::compact`: `fs::remove_file` every segment
file whose id is in the handle-local reader cache, propagating the error if a
file is missing. -/
def deleteFiles (s : KvStore) : List Nat → Out Unit × KvStore
  | [] => (.ok (), s)
  | fid :: rest =>
    if diskHas s.disk fid then
      deleteFiles { s with disk := diskRemove s.disk fid } rest
    else (.err .ioError, s)

/-- `KvStore::compact`: flush (a no-op here), roll the writer to a fresh
segment via `create_new_data_file`, rewrite every live record from a clone of
the key directory, then delete the files in the reader cache, increment the
global version, publish the new key directory and reset the useless-bytes
counter, in that order. -/
def KvStore.compact (s : KvStore) : Out Unit × KvStore :=
  match createNewDataFile s with
  | (.ok _, s1) =>
    match compactLoop s1 s1.keyDir with
    | (.ok newKeyDir, s2) =>
      match deleteFiles s2 s2.readers.files with
      | (.ok _, s3) =>
        (.ok (),
         { s3 with
            globalVersion := s3.globalVersion + 1
            keyDir := newKeyDir
            uselessSize := 0 })
      | (.err e, s3) => (.err e, s3)
      | (.panicked, s3) => (.panicked, s3)
    | (.err e, s2) => (.err e, s2)
    | (.panicked, s2) => (.panicked, s2)
  | (.err e, s1) => (.err e, s1)
  | (.panicked, s1) => (.panicked, s1)

/-- `KvsEngine::set` for `KvStore`: append the Set record, upsert the key
directory (crediting a superseded placement to the useless-bytes counter),
flush (test profile), and compact when the threshold is exceeded. -/
def KvStore.set (s : KvStore) (key value : String) : Out Unit × KvStore :=
  match appendLog s (.set key value) with
  | (.ok meta, s1) =>
    let r := aupsert s1.keyDir key meta
    let s2 : KvStore :=
      { s1 with
          keyDir := r.2
          uselessSize := s1.uselessSize + (match r.1 with | some m => m.len | none => 0) }
    if s2.uselessSize > COMPACT_THRESHOLD then s2.compact else (.ok (), s2)
  | (.err e, s1) => (.err e, s1)
  | (.panicked, s1) => (.panicked, s1)

/-- `KvsEngine::remove` for `KvStore`: look the key up first and fail with
`RemoveNonexistKey` without writing if it is absent; otherwise drop the entry,
credit its length to the useless-bytes counter, append the Rm record, flush,
and compact when the threshold is exceeded. -/
def KvStore.remove (s : KvStore) (key : String) : Out Unit × KvStore :=
  match aremove s.keyDir key with
  | (none, _) => (.err .removeNonexistKey, s)
  | (some m, kd) =>
    let s1 : KvStore := { s with keyDir := kd, uselessSize := s.uselessSize + m.len }
    match appendLog s1 (.rm key) with
    | (.ok _, s2) =>
      if s2.uselessSize > COMPACT_THRESHOLD then s2.compact else (.ok (), s2)
    | (.err e, s2) => (.err e, s2)
    | (.panicked, s2) => (.panicked, s2)

/-- Open-time replay of one data file (`KvStore::open`): stream-decode the
records keeping a running offset; a Set upserts the directory and credits the
superseded placement, an Rm removes the entry and credits it. -/
def replayFile (fid : Nat) : List Command → Nat → KeyDir → Nat → KeyDir × Nat
  | [], _, kd, useless => (kd, useless)
  | c :: rest, fileOffset, kd, useless =>
    let newOffset := fileOffset + encLen c
    match c with
    | .set k _ =>
      let meta : CommandMeta := ⟨fid, fileOffset, newOffset - fileOffset⟩
      let r := aupsert kd k meta
      replayFile fid rest newOffset r.2
        (useless + (match r.1 with | some m => m.len | none => 0))
    | .rm k =>
      let r := aremove kd k
      replayFile fid rest newOffset r.2
        (useless + (match r.1 with | some m => m.len | none => 0))

/-- `KvStore::open`: traverse the data-directory entries in the order the
filesystem enumerates them (the source iterates `fs::read_dir` directly and
does not sort), replaying each file and tracking the maximum file id; then
open the segment with the maximum id for append (creating it if absent,
positioned at end of file), with an empty reader cache and version 0. -/
def KvStore.open (entries : List (Nat × List Command)) : KvStore :=
  let acc := entries.foldl
    (fun (acc : Nat × KeyDir × Nat) (e : Nat × List Command) =>
      let r := replayFile e.1 e.2 0 acc.2.1 acc.2.2
      (max acc.1 e.1, r.1, r.2))
    (0, [], 0)
  let currFileId := acc.1
  let disk := if diskHas entries currFileId then entries else diskCreate entries currFileId
  { disk
    currFileId
    pos := fileSize (diskGetD disk currFileId)
    uselessSize := acc.2.2
    keyDir := acc.2.1
    readers := ⟨0, []⟩
    globalVersion := 0 }

/-- The store obtained by opening an empty directory. -/
def initStore : KvStore := KvStore.open []

/-- One engine operation issued on the handle. -/
inductive Op where
  | setO (k v : String)
  | rmO (k : String)
  | getO (k : String)
deriving DecidableEq, Repr

/-- Run one operation, keeping only the store (the process aborts on panic, so
`runSeq` below stops there). -/
def runOp (s : KvStore) (op : Op) : Out Unit × KvStore :=
  match op with
  | .setO k v => s.set k v
  | .rmO k => s.remove k
  | .getO k =>
    match s.get k with
    | (.ok _, s2) => (.ok (), s2)
    | (.err e, s2) => (.err e, s2)
    | (.panicked, s2) => (.panicked, s2)

/-- Run a sequence of operations; `none` if some operation panicked (the
process died).  An `Err` return leaves the handle usable, so the sequence
continues from the state at the error. -/
def runSeq (s : KvStore) : List Op → Option KvStore
  | [] => some s
  | op :: rest =>
    match runOp s op with
    | (.panicked, _) => none
    | (.ok _, s2) => runSeq s2 rest
    | (.err _, s2) => runSeq s2 rest

/-- A store state reachable by a panic-free operation sequence on the handle
obtained from opening an empty directory. -/
def Reachable (s : KvStore) : Prop := ∃ ops, runSeq initStore ops = some s

/-- The key-to-value mapping a store observably realizes: the value of the Set
record designated by the key directory. -/
def storeVal (s : KvStore) (k : String) : Option String :=
  match alookup s.keyDir k with
  | none => none
  | some m =>
    match decodeAt (diskGetD s.disk m.fileId) m.fileOffset with
    | .record (.set _ v) => some v
    | _ => none

/-! Worker-pool models, from src/src/thread_pool/. -/

/-- One worker of the shared-queue pool (`WorkerHandle::new` spawns the thread
with this id). -/
structure WorkerHandle where
  id : Nat
deriving DecidableEq, Repr

/-- `SharedQueueThreadPool`: its master thread spawns one `WorkerHandle` per
requested worker. -/
structure SharedQueueThreadPool where
  workers : List WorkerHandle
deriving DecidableEq, Repr

/-- `SharedQueueThreadPool::new`: reject `n_threads == 0` with `ZeroSizedPool`,
otherwise spawn the master which creates `n_threads` workers. -/
def sharedQueueNew (nThreads : Nat) : Out SharedQueueThreadPool :=
  if nThreads = 0 then .err .zeroSizedPool
  else .ok ⟨(List.range nThreads).map WorkerHandle.mk⟩

/-- `NaiveThreadPool`: keeps the join handles of threads spawned so far
(`Vec::with_capacity(threads)` starts empty; the count is only a capacity
hint). -/
structure NaiveThreadPool where
  handles : List Nat
deriving DecidableEq, Repr

/-- `NaiveThreadPool::new`: always succeeds, for any thread count including
zero; the argument is only used as a capacity hint. -/
def naiveNew (threads : Nat) : Out NaiveThreadPool :=
  let _ := threads
  .ok ⟨[]⟩

/-- `RayonThreadPool`: wraps a rayon pool built with
`num_threads(threads)`; rayon treats 0 as "use the default thread count" and
the build succeeds. -/
structure RayonThreadPool where
  numThreads : Nat
deriving DecidableEq, Repr

/-- `RayonThreadPool::new`: delegates to `rayon::ThreadPoolBuilder`, which
accepts any thread count including zero. -/
def rayonNew (threads : Nat) : Out RayonThreadPool :=
  .ok ⟨threads⟩

/-! Client model, from src/src/client.rs. -/

/-- Wire responses of the protocol (src/src/server.rs): a value, a plain Ok, a
no-key marker, or a server-side error. -/
inductive WireResponse where
  | value (s : String)
  | okResp
  | noKey
  | errResp
deriving DecidableEq, Repr

/-- A connected TCP stream (abstract in the model). -/
structure TcpStreamM where
  id : Nat
deriving DecidableEq, Repr

/-- Result of constructing a `KvsClient`: either a client value or a panic of
the constructing thread — the signature `fn new(addr) -> Self` has no error
alternative. -/
inductive NewClientResult where
  | client (conn : TcpStreamM)
  | panicked
deriving DecidableEq, Repr

/-- `KvsClient::new`: `TcpStream::connect_timeout(&addr, 2s).unwrap()` — a
connection failure (refused, unreachable, or the 2-second timeout elapsing) is
unwrapped, aborting the caller instead of returning an `Err`. -/
def kvsClientNew (connectResult : Out TcpStreamM) : NewClientResult :=
  match connectResult with
  | .ok conn => .client conn
  | .err _ => .panicked
  | .panicked => .panicked

/-- `KvsClient::request`: encode the request, `write_all` it (`?` propagates
the I/O error), then decode one response (`?` propagates the decode error).
Failures here are reported through the `Result` return type. -/
def kvsClientRequest (writeResult : Out Unit) (decodeResult : Out WireResponse) :
    Out WireResponse :=
  match writeResult with
  | .ok _ => decodeResult
  | .err e => .err e
  | .panicked => .panicked

/-! Concrete runs used by counterexamples and witnesses.  A value of 482
characters gives records of exactly 512 bytes, eight per 4096-byte segment. -/

/-- A 482-character value; `encLen (.set "k" bigValue) = 512`. -/
def bigValue : String := String.mk (List.replicate 482 'a')

/-- `n` overwrites of the key `"k"` with `bigValue`. -/
def fillOps (n : Nat) : List Op := List.replicate n (Op.setO "k" bigValue)

/-- The store after 17 overwrites of `"k"`: segments 0 and 2 are full of dead
records, the live record sits in segment 4, and the useless-bytes counter is
at the threshold. -/
def c4Pre : KvStore := (runSeq initStore (fillOps 17)).getD initStore

/-- The store after a single small `Set`, used as a concrete invariant-holding
state by several witnesses. -/
def oneSetStore : KvStore := (KvStore.set initStore "k" "v").2

/-- The store after eight 512-byte overwrites: segment 0 is exactly full
(`pos = 4096`), so the next append rolls. -/
def eightSetStore : KvStore := (runSeq initStore (fillOps 8)).getD initStore

/-! Invariant. -/

/-- Decidable check that a key-directory entry is well-placed: the designated
byte range of the designated segment decodes to a Set record for this key, the
stored length is the record's encoded length, and the segment file exists. -/
def metaOkB (d : Disk) (k : String) (m : CommandMeta) : Bool :=
  match decodeAt (diskGetD d m.fileId) m.fileOffset with
  | .record (.set k2 v) =>
    k2 == k && m.len == encLen (.set k2 v) && diskHas d m.fileId
  | _ => false

/-- Structural state invariant: the writer's segment exists and `pos` is its
length, every segment respects the cap, ids are bounded by the writer's id and
distinct, key-directory keys and cached reader ids are distinct, cached ids
are bounded, and the handle-local version never exceeds the global one. -/
abbrev StInv (s : KvStore) : Prop :=
  diskHas s.disk s.currFileId = true ∧
  s.pos = fileSize (diskGetD s.disk s.currFileId) ∧
  (∀ p ∈ s.disk, fileSize p.2 ≤ MAX_DATA_FILE_SIZE) ∧
  (∀ p ∈ s.disk, p.1 ≤ s.currFileId) ∧
  (s.disk.map Prod.fst).Nodup ∧
  (s.keyDir.map Prod.fst).Nodup ∧
  s.readers.files.Nodup ∧
  (∀ fid ∈ s.readers.files, fid ≤ s.currFileId) ∧
  s.readers.localVersion ≤ s.globalVersion

/-- Key-directory invariant: every entry is well-placed. -/
abbrev KeyDirOk (s : KvStore) : Prop :=
  ∀ p ∈ s.keyDir, metaOkB s.disk p.1 p.2 = true

/-- Reader-cache invariant: a current cache (local version caught up) holds
only existing files; a stale cache (a compaction happened since the last read)
holds only files that compaction deleted. -/
abbrev CacheOk (s : KvStore) : Prop :=
  (s.readers.localVersion = s.globalVersion ∧
    ∀ fid ∈ s.readers.files, diskHas s.disk fid = true) ∨
  (s.readers.localVersion < s.globalVersion ∧
    ∀ fid ∈ s.readers.files, diskHas s.disk fid = false)

/-- The engine invariant, established by `KvStore.open` on an empty directory
and preserved by every operation. -/
abbrev Inv (s : KvStore) : Prop := StInv s ∧ KeyDirOk s ∧ CacheOk s

/-- Record preservation between two disks: every decodable record stays
decodable at the same placement. -/
def diskPres (d d2 : Disk) : Prop :=
  ∀ fid off c, decodeAt (diskGetD d fid) off = .record c →
    decodeAt (diskGetD d2 fid) off = .record c

/-- File-existence preservation between two disks. -/
def diskHasPres (d d2 : Disk) : Prop :=
  ∀ fid, diskHas d fid = true → diskHas d2 fid = true

/-- Everything `appendLog` guarantees on success. -/
structure AppendOk (s : KvStore) (c : Command) (m : CommandMeta) (s2 : KvStore) : Prop where
  len : m.len = encLen c
  fid : m.fileId = s2.currFileId
  currMono : s.currFileId ≤ s2.currFileId
  currLe : s2.currFileId ≤ s.currFileId + 2
  dec : decodeAt (diskGetD s2.disk m.fileId) m.fileOffset = .record c
  pres : diskPres s.disk s2.disk
  hasPres : diskHasPres s.disk s2.disk
  other : ∀ fid2, fid2 ≠ m.fileId → alookup s2.disk fid2 = alookup s.disk fid2
  w1 : diskHas s2.disk s2.currFileId = true
  w2 : s2.pos = fileSize (diskGetD s2.disk s2.currFileId)
  cap : ∀ p ∈ s2.disk, fileSize p.2 ≤ MAX_DATA_FILE_SIZE
  ids : ∀ p ∈ s2.disk, p.1 ≤ s2.currFileId
  ndIds : (s2.disk.map Prod.fst).Nodup
  kd : s2.keyDir = s.keyDir
  rd : s2.readers = s.readers
  gv : s2.globalVersion = s.globalVersion
  ul : s2.uselessSize = s.uselessSize

/-- Everything the rewrite loop of compaction guarantees on success, relative
to `oldMax`, an upper bound on every pre-compaction segment id. -/
structure LoopConc (oldMax : Nat) (s : KvStore) (entries out : KeyDir)
    (s3 : KvStore) : Prop where
  keys : out.map Prod.fst = entries.map Prod.fst
  valid : ∀ k m, alookup entries k = some m →
    ∃ m2 v, alookup out k = some m2 ∧
      decodeAt (diskGetD s.disk m.fileId) m.fileOffset = .record (.set k v) ∧
      decodeAt (diskGetD s3.disk m2.fileId) m2.fileOffset = .record (.set k v) ∧
      m2.len = encLen (.set k v) ∧
      diskHas s3.disk m2.fileId = true ∧
      oldMax < m2.fileId ∧ m2.fileId ≤ s3.currFileId
  pres : diskPres s.disk s3.disk
  hasPres : diskHasPres s.disk s3.disk
  currMono : s.currFileId ≤ s3.currFileId
  w1 : diskHas s3.disk s3.currFileId = true
  w2 : s3.pos = fileSize (diskGetD s3.disk s3.currFileId)
  cap : ∀ p ∈ s3.disk, fileSize p.2 ≤ MAX_DATA_FILE_SIZE
  ids : ∀ p ∈ s3.disk, p.1 ≤ s3.currFileId
  ndIds : (s3.disk.map Prod.fst).Nodup
  kd : s3.keyDir = s.keyDir
  gv : s3.globalVersion = s.globalVersion
  ul : s3.uselessSize = s.uselessSize
  lv : s3.readers.localVersion ≤ s3.globalVersion
  cacheNd : s3.readers.files.Nodup
  cacheGood : ∀ fid ∈ s3.readers.files,
    s3.readers.localVersion = s3.globalVersion →
      diskHas s3.disk fid = true ∧ fid ≤ oldMax
  lvEq : s.readers.localVersion = s.globalVersion →
    s3.readers.localVersion = s3.globalVersion
  cacheCur : entries ≠ [] → s3.readers.localVersion = s3.globalVersion
  cacheMem : ∀ p ∈ entries, p.2.fileId ∈ s3.readers.files
  cacheSup : s.readers.localVersion = s.globalVersion →
    ∀ j ∈ s.readers.files, j ∈ s3.readers.files
  stEq : entries = [] → s3 = s

/-- Whether an operation writes the given key (the "until another Set(k,_) or
Rm(k)" condition of the read-your-writes property). -/
def touchesKey : Op → String → Bool
  | .setO k2 _, k => k2 == k
  | .rmO k2, k => k2 == k
  | .getO _, _ => false

/-- Whether an operation is a Set of the given key (the "until a subsequent
Set(k,_)" condition of the remove property; an Rm of the key is allowed there
because it fails on an absent key without changing state). -/
def setsKey : Op → String → Bool
  | .setO k2 _, k => k2 == k
  | _, _ => false

section AssocLemmas

variable {α β : Type} [DecidableEq α] {l : List (α × β)} {x z : α} {y b : β}

theorem alookup_eq_none : alookup l x = none ↔ x ∉ l.map Prod.fst := by
  induction l with
  | nil => simp [alookup]
  | cons p rest ih =>
    obtain ⟨a, b⟩ := p
    by_cases h : a = x
    · subst h
      simp [alookup]
    · simp [alookup, h, ih, Ne.symm h]

theorem mem_of_alookup (h : alookup l x = some b) : (x, b) ∈ l := by
  induction l with
  | nil => simp [alookup] at h
  | cons p rest ih =>
    obtain ⟨a, b2⟩ := p
    by_cases hax : a = x
    · simp [alookup, hax] at h
      simp [h, hax]
    · simp [alookup, hax] at h
      exact List.mem_cons_of_mem _ (ih h)

theorem alookup_of_mem (nd : (l.map Prod.fst).Nodup) (h : (x, b) ∈ l) :
    alookup l x = some b := by
  induction l with
  | nil => simp at h
  | cons p rest ih =>
    obtain ⟨a, b2⟩ := p
    simp only [List.map_cons, List.nodup_cons] at nd
    rcases List.mem_cons.mp h with h1 | h1
    · obtain ⟨rfl, rfl⟩ := Prod.mk.injEq .. ▸ h1
      simp [alookup]
    · have hax : a ≠ x := by
        rintro rfl
        exact nd.1 (List.mem_map.mpr ⟨(a, b), h1, rfl⟩)
      simp [alookup, hax, ih nd.2 h1]

theorem exists_alookup_of_mem_keys (h : x ∈ l.map Prod.fst) :
    ∃ c, alookup l x = some c := by
  cases hl : alookup l x with
  | none => exact absurd (alookup_eq_none.mp hl) (by simpa using h)
  | some c => exact ⟨c, rfl⟩

theorem alookup_concat_ne {c : β} (h : x ≠ z) :
    alookup (l ++ [(z, c)]) x = alookup l x := by
  induction l with
  | nil => simp [alookup, Ne.symm h]
  | cons p rest ih =>
    obtain ⟨a, b2⟩ := p
    by_cases hax : a = x <;> simp [alookup, hax, ih]

theorem alookup_append_of_some {l2 : List (α × β)} (h : alookup l x = some b) :
    alookup (l ++ l2) x = some b := by
  induction l with
  | nil => simp [alookup] at h
  | cons p rest ih =>
    obtain ⟨a, b2⟩ := p
    by_cases hax : a = x
    · simp [alookup, hax] at h ⊢
      exact h
    · simp [alookup, hax] at h ⊢
      exact ih h

theorem alookup_concat_self {c : β} (h : alookup l z = none) :
    alookup (l ++ [(z, c)]) z = some c := by
  induction l with
  | nil => simp [alookup]
  | cons p rest ih =>
    obtain ⟨a, b2⟩ := p
    by_cases hax : a = z
    · simp [alookup, hax] at h
    · simp [alookup, hax] at h ⊢
      exact ih h

theorem aupsert_fst : (aupsert l x y).1 = alookup l x := by
  induction l with
  | nil => simp [aupsert, alookup]
  | cons p rest ih =>
    obtain ⟨a, b2⟩ := p
    by_cases hax : a = x <;> simp [aupsert, alookup, hax, ih]

theorem alookup_aupsert_self : alookup (aupsert l x y).2 x = some y := by
  induction l with
  | nil => simp [aupsert, alookup]
  | cons p rest ih =>
    obtain ⟨a, b2⟩ := p
    by_cases hax : a = x <;> simp [aupsert, alookup, hax, ih]

theorem alookup_aupsert_ne (h : z ≠ x) :
    alookup (aupsert l x y).2 z = alookup l z := by
  induction l with
  | nil => simp [aupsert, alookup, Ne.symm h]
  | cons p rest ih =>
    obtain ⟨a, b2⟩ := p
    by_cases hax : a = x
    · subst hax
      simp [aupsert, alookup, Ne.symm h]
    · by_cases haz : a = z <;> simp [aupsert, alookup, hax, haz, ih, h]

theorem keys_aupsert_isSome (h : (alookup l x).isSome) :
    (aupsert l x y).2.map Prod.fst = l.map Prod.fst := by
  induction l with
  | nil => simp [alookup] at h
  | cons p rest ih =>
    obtain ⟨a, b2⟩ := p
    by_cases hax : a = x
    · simp [aupsert, hax]
    · simp [alookup, hax] at h
      simp [aupsert, hax, ih h]

theorem keys_aupsert_none (h : alookup l x = none) :
    (aupsert l x y).2.map Prod.fst = l.map Prod.fst ++ [x] := by
  induction l with
  | nil => simp [aupsert]
  | cons p rest ih =>
    obtain ⟨a, b2⟩ := p
    by_cases hax : a = x
    · simp [alookup, hax] at h
    · simp [alookup, hax] at h
      simp [aupsert, hax, ih h]

theorem nodup_keys_aupsert (nd : (l.map Prod.fst).Nodup) :
    ((aupsert l x y).2.map Prod.fst).Nodup := by
  cases hl : alookup l x with
  | none =>
    rw [keys_aupsert_none hl]
    have hx : x ∉ l.map Prod.fst := alookup_eq_none.mp hl
    refine List.Nodup.append nd (List.nodup_singleton x) ?_
    intro a ha hax
    rw [List.mem_singleton] at hax
    subst hax
    exact hx ha
  | some c =>
    rw [keys_aupsert_isSome (by simp [hl])]
    exact nd

theorem mem_aupsert {p : α × β} (h : p ∈ (aupsert l x y).2) :
    p = (x, y) ∨ p ∈ l := by
  induction l with
  | nil => simpa [aupsert] using h
  | cons q rest ih =>
    obtain ⟨a, b2⟩ := q
    by_cases hax : a = x
    · simp only [aupsert, hax, if_pos rfl] at h
      rcases List.mem_cons.mp h with h1 | h1
      · exact Or.inl h1
      · exact Or.inr (List.mem_cons_of_mem _ h1)
    · simp only [aupsert, if_neg hax] at h
      rcases List.mem_cons.mp h with h1 | h1
      · exact Or.inr (by simp [h1])
      · rcases ih h1 with h2 | h2
        · exact Or.inl h2
        · exact Or.inr (List.mem_cons_of_mem _ h2)

theorem aremove_fst : (aremove l x).1 = alookup l x := by
  induction l with
  | nil => simp [aremove, alookup]
  | cons p rest ih =>
    obtain ⟨a, b2⟩ := p
    by_cases hax : a = x <;> simp [aremove, alookup, hax, ih]

theorem keys_aremove_sublist :
    ((aremove l x).2.map Prod.fst).Sublist (l.map Prod.fst) := by
  induction l with
  | nil => simp [aremove]
  | cons p rest ih =>
    obtain ⟨a, b2⟩ := p
    by_cases hax : a = x
    · simp [aremove, hax]
    · simp only [aremove, if_neg hax, List.map_cons]
      exact ih.cons₂ a

theorem alookup_aremove_self (nd : (l.map Prod.fst).Nodup) :
    alookup (aremove l x).2 x = none := by
  induction l with
  | nil => simp [aremove, alookup]
  | cons p rest ih =>
    obtain ⟨a, b2⟩ := p
    simp only [List.map_cons, List.nodup_cons] at nd
    by_cases hax : a = x
    · subst hax
      simp only [aremove, if_pos rfl]
      exact alookup_eq_none.mpr nd.1
    · simp [aremove, alookup, hax, ih nd.2]

theorem alookup_aremove_ne (h : z ≠ x) :
    alookup (aremove l x).2 z = alookup l z := by
  induction l with
  | nil => simp [aremove]
  | cons p rest ih =>
    obtain ⟨a, b2⟩ := p
    by_cases hax : a = x
    · subst hax
      simp [aremove, alookup, Ne.symm h]
    · by_cases haz : a = z <;> simp [aremove, alookup, hax, haz, ih, h]

theorem mem_aremove {p : α × β} (h : p ∈ (aremove l x).2) : p ∈ l := by
  induction l with
  | nil => simp [aremove] at h
  | cons q rest ih =>
    obtain ⟨a, b2⟩ := q
    by_cases hax : a = x
    · simp only [aremove, if_pos hax] at h
      exact List.mem_cons_of_mem _ h
    · simp only [aremove, if_neg hax] at h
      rcases List.mem_cons.mp h with h1 | h1
      · simp [h1]
      · exact List.mem_cons_of_mem _ (ih h1)

theorem nodup_keys_aremove (nd : (l.map Prod.fst).Nodup) :
    ((aremove l x).2.map Prod.fst).Nodup :=
  nd.sublist keys_aremove_sublist

theorem keys_amodify {g : β → β} :
    (amodify l x g).map Prod.fst = l.map Prod.fst := by
  induction l with
  | nil => simp [amodify]
  | cons p rest ih =>
    obtain ⟨a, b2⟩ := p
    by_cases hax : a = x <;> simp [amodify, hax, ih]

theorem alookup_amodify_self {g : β → β} :
    alookup (amodify l x g) x = (alookup l x).map g := by
  induction l with
  | nil => simp [amodify, alookup]
  | cons p rest ih =>
    obtain ⟨a, b2⟩ := p
    by_cases hax : a = x <;> simp [amodify, alookup, hax, ih]

theorem alookup_amodify_ne {g : β → β} (h : z ≠ x) :
    alookup (amodify l x g) z = alookup l z := by
  induction l with
  | nil => simp [amodify]
  | cons p rest ih =>
    obtain ⟨a, b2⟩ := p
    by_cases hax : a = x
    · subst hax
      simp [amodify, alookup, Ne.symm h]
    · by_cases haz : a = z <;> simp [amodify, alookup, hax, haz, ih, h]

theorem mem_amodify {g : β → β} {p : α × β} (h : p ∈ amodify l x g) :
    p ∈ l ∨ ∃ c, alookup l x = some c ∧ p = (x, g c) := by
  induction l with
  | nil => simp [amodify] at h
  | cons q rest ih =>
    obtain ⟨a, b2⟩ := q
    by_cases hax : a = x
    · subst hax
      simp only [amodify, if_pos rfl] at h
      rcases List.mem_cons.mp h with h1 | h1
      · exact Or.inr ⟨b2, by simp [alookup], h1⟩
      · exact Or.inl (List.mem_cons_of_mem _ h1)
    · simp only [amodify, if_neg hax] at h
      rcases List.mem_cons.mp h with h1 | h1
      · exact Or.inl (by simp [h1])
      · rcases ih h1 with h2 | h2
        · exact Or.inl (List.mem_cons_of_mem _ h2)
        · obtain ⟨c, hc, hp⟩ := h2
          exact Or.inr ⟨c, by simp [alookup, hax, hc], hp⟩

end AssocLemmas

section DecodeLemmas

theorem jsonStrLen_ge {s : String} : 2 ≤ jsonStrLen s := by
  simp [jsonStrLen]

theorem encLen_pos {c : Command} : 0 < encLen c := by
  cases c <;> simp [encLen]

theorem fileSize_nil : fileSize [] = 0 := rfl

theorem fileSize_cons {c : Command} {f : List Command} :
    fileSize (c :: f) = encLen c + fileSize f := by
  simp [fileSize]

theorem fileSize_append {f g : List Command} :
    fileSize (f ++ g) = fileSize f + fileSize g := by
  simp [fileSize]

theorem decodeAt_append_record {f g : List Command} {off : Nat} {c : Command}
    (h : decodeAt f off = .record c) : decodeAt (f ++ g) off = .record c := by
  induction f generalizing off with
  | nil => simp [decodeAt] at h
  | cons c0 rest ih =>
    by_cases h0 : off = 0
    · simp [decodeAt, h0] at h ⊢
      exact h
    · by_cases h1 : off < encLen c0
      · simp [decodeAt, h0, h1] at h
      · simp only [decodeAt, if_neg h0, if_neg h1, List.cons_append] at h ⊢
        exact ih h

theorem decodeAt_concat_size {f : List Command} {c : Command} :
    decodeAt (f ++ [c]) (fileSize f) = .record c := by
  induction f with
  | nil => simp [decodeAt, fileSize]
  | cons c0 rest ih =>
    have hpos : 0 < encLen c0 := encLen_pos
    have h0 : encLen c0 + fileSize rest ≠ 0 := by omega
    have h1 : ¬ encLen c0 + fileSize rest < encLen c0 := by omega
    simp only [fileSize_cons, List.cons_append, decodeAt, if_neg h0, if_neg h1]
    simpa using ih

theorem decodeAt_record_size_le {f : List Command} {off : Nat} {c : Command}
    (h : decodeAt f off = .record c) : off + encLen c ≤ fileSize f := by
  induction f generalizing off with
  | nil => simp [decodeAt] at h
  | cons c0 rest ih =>
    by_cases h0 : off = 0
    · simp [decodeAt, h0] at h
      subst h
      simp [fileSize_cons, h0]
    · by_cases h1 : off < encLen c0
      · simp [decodeAt, h0, h1] at h
      · simp only [decodeAt, if_neg h0, if_neg h1] at h
        have := ih h
        simp only [fileSize_cons]
        omega

end DecodeLemmas


section DiskLemmas

variable {d d2 d3 : Disk} {fid fid2 : Nat} {c : Command} {k : String} {m : CommandMeta}

theorem diskPres_refl : diskPres d d := fun _ _ _ h => h

theorem diskPres_trans (h1 : diskPres d d2) (h2 : diskPres d2 d3) : diskPres d d3 :=
  fun fid off c h => h2 fid off c (h1 fid off c h)

theorem diskHasPres_refl : diskHasPres d d := fun _ h => h

theorem diskHasPres_trans (h1 : diskHasPres d d2) (h2 : diskHasPres d2 d3) :
    diskHasPres d d3 := fun fid h => h2 fid (h1 fid h)

theorem diskHas_le {s : KvStore} (hids : ∀ p ∈ s.disk, p.1 ≤ s.currFileId)
    (h : diskHas s.disk fid = true) : fid ≤ s.currFileId := by
  unfold diskHas at h
  cases hl : alookup s.disk fid with
  | none => simp [hl] at h
  | some f => exact hids (fid, f) (mem_of_alookup hl)

theorem metaOkB_elim (h : metaOkB d k m = true) :
    ∃ v, decodeAt (diskGetD d m.fileId) m.fileOffset = .record (.set k v) ∧
      m.len = encLen (.set k v) ∧ diskHas d m.fileId = true := by
  unfold metaOkB at h
  split at h
  case _ k2 v heq =>
    simp only [Bool.and_eq_true, beq_iff_eq] at h
    obtain ⟨⟨hk, hlen⟩, hhas⟩ := h
    subst hk
    exact ⟨v, heq, hlen, hhas⟩
  case _ => simp at h

theorem metaOkB_intro {v : String}
    (hdec : decodeAt (diskGetD d m.fileId) m.fileOffset = .record (.set k v))
    (hlen : m.len = encLen (.set k v)) (hhas : diskHas d m.fileId = true) :
    metaOkB d k m = true := by
  unfold metaOkB
  rw [hdec]
  simp [hlen, hhas]

theorem metaOkB_mono (h : metaOkB d k m = true) (hp : diskPres d d2)
    (hh : diskHasPres d d2) : metaOkB d2 k m = true := by
  obtain ⟨v, hdec, hlen, hhas⟩ := metaOkB_elim h
  exact metaOkB_intro (hp _ _ _ hdec) hlen (hh _ hhas)

theorem diskGetD_append_self (h : diskHas d
fid = true) :
    diskGetD (diskAppend d fid c) fid = diskGetD d fid ++ [c] := by
  unfold diskHas at h
  cases hl : alookup d fid with
  | none => simp [hl] at h
  | some f =>
    simp [diskGetD, diskAppend, alookup_amodify_self, hl]

theorem diskGetD_append_ne (h : fid2 ≠ fid) :
    diskGetD (diskAppend d fid c) fid2 = diskGetD d fid2 := by
  simp [diskGetD, diskAppend, alookup_amodify_ne h]

theorem diskHas_append : diskHas (diskAppend d fid c) fid2 = diskHas d fid2 := by
  by_cases h : fid2 = fid
  · subst h
    simp only [diskHas, diskAppend, alookup_amodify_self]
    cases alookup d fid2 <;> simp
  · simp [diskHas, diskAppend, alookup_amodify_ne h]

theorem diskPres_append : diskPres d (diskAppend d fid c) := by
  intro fid3 off c2 hdec
  by_cases h : fid3 = fid
  · subst h
    by_cases hh : diskHas d fid3 = true
    · rw [diskGetD_append_self hh]
      exact decodeAt_append_record hdec
    · have : alookup d fid3 = none := by
        unfold diskHas at hh
        cases hl : alookup d fid3 with
        | none => rfl
        | some f => simp [hl] at hh
      simp [diskGetD, this] at hdec
      simp [decodeAt] at hdec
  · rw [diskGetD_append_ne h]
    exact hdec

theorem diskHasPres_append : diskHasPres d (diskAppend d fid c) := by
  intro fid3 h
  rw [diskHas_append]
  exact h

theorem alookup_create_ne (h : fid2 ≠ fid) :
    alookup (diskCreate d fid) fid2 = alookup d fid2 := alookup_concat_ne h

theorem alookup_create_self (h : diskHas d fid = false) :
    alookup (diskCreate d fid) fid = some [] := by
  unfold diskHas at h
  cases hl : alookup d fid with
  | none => exact alookup_concat_self hl
  | some f => simp [hl] at h

theorem diskHas_create_self (h : diskHas d fid = false) :
    diskHas (diskCreate d fid) fid = true := by
  simp [diskHas, alookup_create_self h]

theorem diskPres_create : diskPres d (diskCreate d fid) := by
  intro fid3 off c2 hdec
  cases hl : alookup d fid3 with
  | none =>
    simp [diskGetD, hl, decodeAt] at hdec
  | some f =>
    have h2 : alookup (diskCreate d fid) fid3 = some f := alookup_append_of_some hl
    rw [diskGetD, h2]
    simpa [diskGetD, hl] using hdec

theorem diskHasPres_create : diskHasPres d (diskCreate d fid) := by
  intro fid3 h
  unfold diskHas at h ⊢
  cases hl : alookup d fid3 with
  | none => simp [hl] at h
  | some f => simp [diskCreate, alookup_append_of_some hl]

theorem alookup_remove_ne (h : fid2 ≠ fid) :
    alookup (diskRemove d fid) fid2 = alookup d fid2 := alookup_aremove_ne h

theorem diskHas_remove_self (nd : (d.map Prod.fst).Nodup) :
    diskHas (diskRemove d fid) fid = false := by
  simp [diskHas, diskRemove, alookup_aremove_self nd]

end DiskLemmas


theorem appendLog_ok (s : KvStore) (c : Command)
    (hw1 : diskHas s.disk s.currFileId = true)
    (hw2 : s.pos = fileSize (diskGetD s.disk s.currFileId))
    (hcap : ∀ p ∈ s.disk, fileSize p.2 ≤ MAX_DATA_FILE_SIZE)
    (hids : ∀ p ∈ s.disk, p.1 ≤ s.currFileId)
    (hnd : (s.disk.map Prod.fst).Nodup)
    (hc : encLen c ≤ MAX_DATA_FILE_SIZE) :
    ∃ m s2, appendLog s c = (.ok m, s2) ∧ AppendOk s c m s2 := by
  by_cases hroll : encLen c + s.pos > MAX_DATA_FILE_SIZE
  · -- roll to a new segment: the id advances by two
    have hne2 : diskHas s.disk (s.currFileId + 1 + 1) = false := by
      cases h : diskHas s.disk (s.currFileId + 1 + 1) with
      | false => rfl
      | true => exact absurd (diskHas_le hids h) (by omega)
    have hcreateHas : diskHas (diskCreate s.disk (s.currFileId + 1 + 1))
        (s.currFileId + 1 + 1) = true := diskHas_create_self hne2
    have hgetC : diskGetD (diskCreate s.disk (s.currFileId + 1 + 1))
        (s.currFileId + 1 + 1) = [] := by
      simp [diskGetD, alookup_create_self hne2]
    have hkeys : ((diskCreate s.disk (s.currFileId + 1 + 1)).map Prod.fst) =
        s.disk.map Prod.fst ++ [s.currFileId + 1 + 1] := by
      simp [diskCreate]
    have hndC : ((diskCreate s.disk (s.currFileId + 1 + 1)).map Prod.fst).Nodup := by
      rw [hkeys]
      refine List.Nodup.append hnd (List.nodup_singleton _) ?_
      intro a ha hax
      rw [List.mem_singleton] at hax
      subst hax
      obtain ⟨f, hf⟩ := exists_alookup_of_mem_keys ha
      have hhas2 : diskHas s.disk (s.currFileId + 1 + 1) = true := by
        simp [diskHas, hf]
      have := diskHas_le hids hhas2
      omega
    refine ⟨⟨s.currFileId + 1 + 1, 0, encLen c⟩,
      { s with
          currFileId := s.currFileId + 1 + 1
          disk := diskAppend (diskCreate s.disk (s.currFileId + 1 + 1))
            (s.currFileId + 1 + 1) c
          pos := encLen c }, ?_, ?_⟩
    · simp only [appendLog, createNewDataFile]
      rw [if_pos hc, if_pos hroll]
      simp [hne2]
    · have hgetA : diskGetD (diskAppend (diskCreate s.disk (s.currFileId + 1 + 1))
          (s.currFileId + 1 + 1) c) (s.currFileId + 1 + 1) = [c] := by
        rw [diskGetD_append_self hcreateHas, hgetC]
        rfl
      have hpresC : diskPres s.disk (diskCreate s.disk (s.currFileId + 1 + 1)) :=
        diskPres_create
      have hpresA : diskPres (diskCreate s.disk (s.currFileId + 1 + 1))
          (diskAppend (diskCreate s.disk (s.currFileId + 1 + 1)) (s.currFileId + 1 + 1) c) :=
        diskPres_append
      refine
        { len := rfl
          fid := rfl
          currMono := by dsimp only; omega
          currLe := by dsimp only; omega
          dec := by
            rw [hgetA]
            simp [decodeAt]
          pres := diskPres_trans hpresC hpresA
          hasPres := diskHasPres_trans diskHasPres_create diskHasPres_append
          other := ?_
          w1 := by
            rw [diskHas_append]
            exact hcreateHas
          w2 := by
            rw [hgetA]
            simp [fileSize]
          cap := ?_
          ids := ?_
          ndIds := by
            rw [diskAppend, keys_amodify]
            exact hndC
          kd := rfl
          rd := rfl
          gv := rfl
          ul := rfl }
      · intro fid2 hfid2
        rw [diskAppend, alookup_amodify_ne hfid2, alookup_create_ne hfid2]
      · intro p hp
        rcases mem_amodify hp with hp2 | ⟨f, hf, rfl⟩
        · rcases List.mem_append.mp hp2 with hp3 | hp3
          · exact hcap p hp3
          · rw [List.mem_singleton] at hp3
            subst hp3
            simp [fileSize]
        · rw [alookup_create_self hne2] at hf
          obtain rfl : f = [] := by injection hf with h2; exact h2.symm
          simpa [fileSize] using hc
      · intro p hp
        dsimp only at hp ⊢
        rcases mem_amodify hp with hp2 | ⟨f, hf, rfl⟩
        · rcases List.mem_append.mp hp2 with hp3 | hp3
          · have := hids p hp3
            omega
          · rw [List.mem_singleton] at hp3
            subst hp3
            simp
        · simp
  · -- the record fits in the current segment
    have hfit : encLen c + s.pos ≤ MAX_DATA_FILE_SIZE := by omega
    refine ⟨⟨s.currFileId, s.pos, encLen c⟩,
      { s with
          disk := diskAppend s.disk s.currFileId c
          pos := s.pos + encLen c }, ?_, ?_⟩
    · simp only [appendLog]
      rw [if_pos hc, if_neg hroll]
    · have hgetA : diskGetD (diskAppend s.disk s.currFileId c) s.currFileId =
          diskGetD s.disk s.currFileId ++ [c] := diskGetD_append_self hw1
      refine
        { len := rfl
          fid := rfl
          currMono := Nat.le_refl _
          currLe := by dsimp only; omega
          dec := by
            rw [hgetA, hw2]
            exact decodeAt_concat_size
          pres := diskPres_append
          hasPres := diskHasPres_append
          other := ?_
          w1 := by
            rw [diskHas_append]
            exact hw1
          w2 := by
            rw [hgetA, fileSize_append, hw2]
            simp [fileSize]
          cap := ?_
          ids := ?_
          ndIds := by
            rw [diskAppend, keys_amodify]
            exact hnd
          kd := rfl
          rd := rfl
          gv := rfl
          ul := rfl }
      · intro fid2 hfid2
        exact alookup_amodify_ne hfid2
      · intro p hp
        rcases mem_amodify hp with hp2 | ⟨f, hf, rfl⟩
        · exact hcap p hp2
        · have hfeq : f = diskGetD s.disk s.currFileId := by
            simp [diskGetD, hf]
          rw [fileSize_append]
          subst hfeq
          have h1 : fileSize [c] = encLen c := by simp [fileSize]
          rw [h1, ← hw2]
          omega
      · intro p hp
        rcases mem_amodify hp with hp2 | ⟨f, hf, rfl⟩
        · exact hids p hp2
        · simp

theorem appendLog_panicked {s : KvStore} {c : Command}
    (h : ¬ encLen c ≤ MAX_DATA_FILE_SIZE) : appendLog s c = (.panicked, s) := by
  simp [appendLog, h]

theorem appendLog_shape {s : KvStore} {c : Command} {m : CommandMeta} {s2 : KvStore}
    (h : appendLog s c = (.ok m, s2)) :
    (encLen c + s.pos > MAX_DATA_FILE_SIZE →
      s2.currFileId = s.currFileId + 2 ∧ m.fileOffset = 0) ∧
    (encLen c + s.pos ≤ MAX_DATA_FILE_SIZE →
      s2.currFileId = s.currFileId ∧ m.fileOffset = s.pos) := by
  by_cases hc : encLen c ≤ MAX_DATA_FILE_SIZE
  · simp only [appendLog] at h
    rw [if_pos hc] at h
    by_cases hroll : encLen c + s.pos > MAX_DATA_FILE_SIZE
    · rw [if_pos hroll] at h
      simp only [createNewDataFile] at h
      by_cases hhas2 : diskHas s.disk (s.currFileId + 1 + 1) = true
      · rw [if_pos hhas2] at h
        simp at h
      · rw [if_neg hhas2] at h
        dsimp only at h
        rw [Prod.mk.injEq] at h
        obtain ⟨h1, h2⟩ := h
        injection h1 with h1
        subst h1
        subst h2
        refine ⟨fun _ => ⟨rfl, rfl⟩, fun hle => absurd hroll (by omega)⟩
    · rw [if_neg hroll] at h
      rw [Prod.mk.injEq] at h
      obtain ⟨h1, h2⟩ := h
      injection h1 with h1
      subst h1
      subst h2
      exact ⟨fun hgt => absurd hgt hroll, fun _ => ⟨rfl, rfl⟩⟩
  · rw [appendLog_panicked hc] at h
    simp at h

theorem storeVal_none {s : KvStore} {k : String} (h : alookup s.keyDir k = none) :
    storeVal s k = none := by
  simp [storeVal, h]

theorem storeVal_some {s : KvStore} {k j v : String} {m : CommandMeta}
    (h : alookup s.keyDir k = some m)
    (hdec : decodeAt (diskGetD s.disk m.fileId) m.fileOffset = .record (.set j v)) :
    storeVal s k = some v := by
  simp [storeVal, h, hdec]

theorem readValue_ok (s : KvStore) (fid off : Nat) (k v : String)
    (hdec : decodeAt (diskGetD s.disk fid) off = .record (.set k v))
    (hhas : diskHas s.disk fid = true)
    (hver : s.readers.localVersion ≤ s.globalVersion) :
    ∃ rs2 : Readers,
      readValue s fid off = (.ok v, { s with readers := rs2 }) ∧
      rs2.localVersion = s.globalVersion ∧
      fid ∈ rs2.files ∧
      (∀ j ∈ rs2.files, j = fid ∨
        (j ∈ s.readers.files ∧ s.readers.localVersion = s.globalVersion)) ∧
      (s.readers.localVersion = s.globalVersion →
        ∀ j ∈ s.readers.files, j ∈ rs2.files) ∧
      (s.readers.files.Nodup → rs2.files.Nodup) := by
  by_cases hst : s.globalVersion > s.readers.localVersion
  · refine ⟨⟨s.globalVersion, [fid]⟩, ?_, rfl, by simp, ?_, ?_, ?_⟩
    · simp only [readValue]
      rw [if_pos hst]
      have hcond : fid ∈ (⟨s.globalVersion, ([] : List Nat)⟩ : Readers).files ∨
          diskHas s.disk fid = true := Or.inr hhas
      rw [if_pos hcond]
      have hmem : fid ∈ (⟨s.globalVersion, ([] : List Nat)⟩ : Readers).files ↔ False := by
        simp
      rw [if_neg hmem.mp]
      dsimp only
      rw [hdec]
    · intro j hj
      rw [List.mem_singleton] at hj
      exact Or.inl hj
    · intro heq
      omega
    · intro _
      exact List.nodup_singleton _
  · have heq : s.readers.localVersion = s.globalVersion := by omega
    by_cases hmem : fid ∈ s.readers.files
    · refine ⟨s.readers, ?_, heq, hmem, ?_, ?_, ?_⟩
      · simp only [readValue]
        rw [if_neg hst, if_pos (Or.inl hmem), if_pos hmem]
        rw [hdec]
      · intro j hj
        exact Or.inr ⟨hj, heq⟩
      · intro _ j hj
        exact hj
      · intro h
        exact h
    · refine ⟨⟨s.readers.localVersion, fid :: s.readers.files⟩, ?_, heq, by simp, ?_, ?_, ?_⟩
      · simp only [readValue]
        rw [if_neg hst, if_pos (Or.inr hhas), if_neg hmem]
        rw [hdec]
      · intro j hj
        rcases List.mem_cons.mp hj with hj2 | hj2
        · exact Or.inl hj2
        · exact Or.inr ⟨hj2, heq⟩
      · intro _ j hj
        exact List.mem_cons_of_mem _ hj
      · intro h
        exact List.Nodup.cons hmem h

theorem get_ok (s : KvStore) (k : String) (hInv : Inv s) :
    ∃ s2, s.get k = (.ok (storeVal s k), s2) ∧ Inv s2 ∧
      s2.disk = s.disk ∧ s2.keyDir = s.keyDir ∧ s2.currFileId = s.currFileId ∧
      s2.pos = s.pos ∧ s2.globalVersion = s.globalVersion ∧
      s2.uselessSize = s.uselessSize := by
  obtain ⟨⟨hw1, hw2, hcap, hids, hnd, hkdnd, hrnd, hrle, hver⟩, hkd, hco⟩ := hInv
  cases hlk : alookup s.keyDir k with
  | none =>
    refine ⟨s, ?_, ?_, rfl, rfl, rfl, rfl, rfl, rfl⟩
    · rw [storeVal_none hlk]
      simp [KvStore.get, hlk]
    · exact ⟨⟨hw1, hw2, hcap, hids, hnd, hkdnd, hrnd, hrle, hver⟩, hkd, hco⟩
  | some m =>
    have hmok := hkd (k, m) (mem_of_alookup hlk)
    obtain ⟨v, hdec, hlen, hhas⟩ := metaOkB_elim hmok
    obtain ⟨rs2, hrv, hlv, hfid, hall, hsup, hndp⟩ :=
      readValue_ok s m.fileId m.fileOffset k v hdec hhas hver
    refine ⟨{ s with readers := rs2 }, ?_, ?_, rfl, rfl, rfl, rfl, rfl, rfl⟩
    · rw [storeVal_some hlk hdec]
      simp [KvStore.get, hlk, hrv]
    · refine ⟨⟨hw1, hw2, hcap, hids, hnd, hkdnd, hndp hrnd, ?_, ?_⟩, hkd, ?_⟩
      · intro j hj
        rcases hall j hj with rfl | ⟨hj2, _⟩
        · exact diskHas_le hids hhas
        · exact hrle j hj2
      · dsimp only
        rw [hlv]
      · refine Or.inl ⟨hlv, ?_⟩
        intro j hj
        rcases hall j hj with rfl | ⟨hj2, hveq⟩
        · exact hhas
        · rcases hco with ⟨_, hall2⟩ | ⟨hlt, _⟩
          · exact hall2 j hj2
          · omega

theorem nodup_keys_create {d : Disk} {fid : Nat}
    (hnd : (d.map Prod.fst).Nodup) (hnew : diskHas d fid = false) :
    ((diskCreate d fid).map Prod.fst).Nodup := by
  have hkeys : (diskCreate d fid).map Prod.fst = d.map Prod.fst ++ [fid] := by
    simp [diskCreate]
  rw [hkeys]
  refine List.Nodup.append hnd (List.nodup_singleton _) ?_
  intro a ha hax
  rw [List.mem_singleton] at hax
  subst hax
  obtain ⟨f, hf⟩ := exists_alookup_of_mem_keys ha
  simp [diskHas, hf] at hnew

theorem alookup_isSome_of_keys_eq {α β γ : Type} [DecidableEq α]
    {l1 : List (α × β)} {l2 : List (α × γ)}
    (h : l1.map Prod.fst = l2.map Prod.fst) (x : α) :
    (alookup l1 x).isSome = (alookup l2 x).isSome := by
  cases h1 : alookup l1 x with
  | none =>
    have := alookup_eq_none.mp h1
    rw [h] at this
    rw [alookup_eq_none.mpr this]
    rfl
  | some b =>
    have hx : x ∈ l2.map Prod.fst := by
      rw [← h]
      exact List.mem_map.mpr ⟨(x, b), mem_of_alookup h1, rfl⟩
    obtain ⟨c, hc⟩ := exists_alookup_of_mem_keys hx
    rw [hc]
    rfl

theorem deleteFiles_ok : ∀ (l : List Nat) (s : KvStore),
    l.Nodup → (∀ fid ∈ l, diskHas s.disk fid = true) →
    (s.disk.map Prod.fst).Nodup →
    ∃ s3, deleteFiles s l = (.ok (), s3) ∧
      (∀ fid ∈ l, diskHas s3.disk fid = false) ∧
      (∀ fid, fid ∉ l → alookup s3.disk fid = alookup s.disk fid) ∧
      (∀ p ∈ s3.disk, p ∈ s.disk) ∧
      ((s3.disk.map Prod.fst).Nodup) ∧
      s3.currFileId = s.currFileId ∧ s3.pos = s.pos ∧ s3.keyDir = s.keyDir ∧
      s3.readers = s.readers ∧ s3.globalVersion = s.globalVersion ∧
      s3.uselessSize = s.uselessSize
  | [], s => by
    intro _ _ hdnd
    exact ⟨s, rfl, by simp, fun _ _ => rfl, fun p hp => hp, hdnd,
      rfl, rfl, rfl, rfl, rfl, rfl⟩
  | fid :: rest, s => by
    intro hnd hall hdnd
    have hhas : diskHas s.disk fid = true := hall fid (by simp)
    rw [List.nodup_cons] at hnd
    have hdnd2 : ((diskRemove s.disk fid).map Prod.fst).Nodup :=
      List.Nodup.sublist keys_aremove_sublist hdnd
    have hall2 : ∀ j ∈ rest, diskHas { s with disk := diskRemove s.disk fid }.disk j = true := by
      intro j hj
      have hne : j ≠ fid := fun h => hnd.1 (h ▸ hj)
      dsimp only
      unfold diskHas
      rw [alookup_remove_ne hne]
      exact hall j (List.mem_cons_of_mem _ hj)
    obtain ⟨s3, heq, hdel, huntouched, hsub, hnd3, hc, hp, hk, hr, hg, hu⟩ :=
      deleteFiles_ok rest { s with disk := diskRemove s.disk fid } hnd.2 hall2 hdnd2
    refine ⟨s3, ?_, ?_, ?_, ?_, hnd3, hc, hp, hk, hr, hg, hu⟩
    · simp only [deleteFiles]
      rw [if_pos hhas]
      exact heq
    · intro j hj
      rcases List.mem_cons.mp hj with rfl | hj2
      · have h8 : alookup s3.disk j = alookup (diskRemove s.disk j) j := huntouched j hnd.1
        unfold diskHas
        rw [h8]
        have h9 : diskHas (diskRemove s.disk j) j = false := diskHas_remove_self hdnd
        unfold diskHas at h9
        cases h2 : alookup (diskRemove s.disk j) j with
        | none => rfl
        | some f => simp [h2] at h9
      · exact hdel j hj2
    · intro j hj
      rw [List.mem_cons] at hj
      push_neg at hj
      rw [huntouched j hj.2]
      exact alookup_remove_ne hj.1
    · intro p hp2
      exact mem_aremove (hsub p hp2)


theorem compactLoop_ok (oldMax : Nat) : ∀ (entries : KeyDir) (s : KvStore),
    (∀ p ∈ entries, metaOkB s.disk p.1 p.2 = true ∧ p.2.fileId ≤ oldMax) →
    oldMax < s.currFileId →
    diskHas s.disk s.currFileId = true →
    s.pos = fileSize (diskGetD s.disk s.currFileId) →
    (∀ p ∈ s.disk, fileSize p.2 ≤ MAX_DATA_FILE_SIZE) →
    (∀ p ∈ s.disk, p.1 ≤ s.currFileId) →
    (s.disk.map Prod.fst).Nodup →
    s.readers.localVersion ≤ s.globalVersion →
    s.readers.files.Nodup →
    (∀ fid ∈ s.readers.files, s.readers.localVersion = s.globalVersion →
      diskHas s.disk fid = true ∧ fid ≤ oldMax) →
    ∃ out s3, compactLoop s entries = (.ok out, s3) ∧ LoopConc oldMax s entries out s3
  | [], s => by
    intro _ _ hw1 hw2 hcap hids hnd hver hcnd hcg
    refine ⟨[], s, rfl, ?_⟩
    exact
      { keys := rfl
        valid := by
          intro k m h
          simp [alookup] at h
        pres := diskPres_refl
        hasPres := diskHasPres_refl
        currMono := Nat.le_refl _
        w1 := hw1
        w2 := hw2
        cap := hcap
        ids := hids
        ndIds := hnd
        kd := rfl
        gv := rfl
        ul := rfl
        lv := hver
        cacheNd := hcnd
        cacheGood := hcg
        lvEq := fun h => h
        cacheCur := fun h => absurd rfl h
        cacheMem := by simp
        cacheSup := fun _ j hj => hj
        stEq := fun _ => rfl }
  | (k, m) :: rest, s => by
    intro hval hmax hw1 hw2 hcap hids hnd hver hcnd hcg
    obtain ⟨hmok, hfle⟩ := hval (k, m) (by simp)
    dsimp only at hmok hfle
    obtain ⟨v, hdec, hlen, hhas⟩ := metaOkB_elim hmok
    have hfmem : (m.fileId, diskGetD s.disk m.fileId) ∈ s.disk := by
      unfold diskHas at hhas
      cases hl : alookup s.disk m.fileId with
      | none => simp [hl] at hhas
      | some f => simpa [diskGetD, hl] using mem_of_alookup hl
    have henc : encLen (.set k v) ≤ MAX_DATA_FILE_SIZE := by
      have h1 := decodeAt_record_size_le hdec
      have h2 := hcap _ hfmem
      dsimp only at h2
      omega
    obtain ⟨rs2, hrv, hlv, hfid, hall, hsup, hndp⟩ :=
      readValue_ok s m.fileId m.fileOffset k v hdec hhas hver
    obtain ⟨m2, s2, happ, A⟩ :=
      appendLog_ok { s with readers := rs2 } (.set k v) hw1 hw2 hcap hids hnd henc
    have hs2rd : s2.readers = rs2 := A.rd
    have hs2gv : s2.globalVersion = s.globalVersion := A.gv
    have hs2eq : s2.readers.localVersion = s2.globalVersion := by
      rw [hs2rd, hs2gv, hlv]
    have hval2 : ∀ p ∈ rest, metaOkB s2.disk p.1 p.2 = true ∧ p.2.fileId ≤ oldMax := by
      intro p hp
      obtain ⟨h1, h2⟩ := hval p (List.mem_cons_of_mem _ hp)
      exact ⟨metaOkB_mono h1 A.pres A.hasPres, h2⟩
    have hmax2 : oldMax < s2.currFileId := Nat.lt_of_lt_of_le hmax A.currMono
    have hver2 : s2.readers.localVersion ≤ s2.globalVersion := Nat.le_of_eq hs2eq
    have hcnd2 : s2.readers.files.Nodup := by
      rw [hs2rd]
      exact hndp hcnd
    have hcg2 : ∀ fid ∈ s2.readers.files,
        s2.readers.localVersion = s2.globalVersion →
        diskHas s2.disk fid = true ∧ fid ≤ oldMax := by
      intro fid hfmem2 _
      rw [hs2rd] at hfmem2
      rcases hall fid hfmem2 with rfl | ⟨hmemold, hveq⟩
      · exact ⟨A.hasPres _ hhas, hfle⟩
      · obtain ⟨hh, hle⟩ := hcg fid hmemold hveq
        exact ⟨A.hasPres _ hh, hle⟩
    obtain ⟨out, s3, hloop, L⟩ :=
      compactLoop_ok oldMax rest s2 hval2 hmax2 A.w1 A.w2 A.cap A.ids A.ndIds
        hver2 hcnd2 hcg2
    refine ⟨(k, m2) :: out, s3, ?_, ?_⟩
    · simp only [compactLoop, hrv, happ, hloop]
    · refine
        { keys := by simp [L.keys]
          valid := ?_
          pres := diskPres_trans A.pres L.pres
          hasPres := diskHasPres_trans A.hasPres L.hasPres
          currMono := Nat.le_trans A.currMono L.currMono
          w1 := L.w1
          w2 := L.w2
          cap := L.cap
          ids := L.ids
          ndIds := L.ndIds
          kd := L.kd.trans A.kd
          gv := L.gv.trans A.gv
          ul := L.ul.trans A.ul
          lv := L.lv
          cacheNd := L.cacheNd
          cacheGood := L.cacheGood
          lvEq := fun _ => L.lvEq hs2eq
          cacheCur := fun _ => L.lvEq hs2eq
          cacheMem := ?_
          cacheSup := ?_
          stEq := fun h => absurd h (List.cons_ne_nil _ _) }
      · intro k2 m3 hlk
        by_cases hk2 : k = k2
        · subst hk2
          rw [alookup, if_pos rfl] at hlk
          injection hlk with hlk
          subst hlk
          refine ⟨m2, v, by rw [alookup, if_pos rfl], hdec, ?_, A.len, ?_, ?_, ?_⟩
          · exact L.pres _ _ _ A.dec
          · rw [A.fid]
            exact L.hasPres _ A.w1
          · have := A.currMono
            rw [A.fid] at *
            omega
          · rw [A.fid]
            exact L.currMono
        · rw [alookup, if_neg hk2] at hlk
          obtain ⟨hmok3, _⟩ := hval (k2, m3) (List.mem_cons_of_mem _ (mem_of_alookup hlk))
          obtain ⟨v3, hdec3, hlen3, hhas3⟩ := metaOkB_elim hmok3
          obtain ⟨m4, v4, hout4, hdecS2, hdecS3, hlen4, hhas4, hgt4, hle4⟩ :=
            L.valid k2 m3 hlk
          have hdec3b : decodeAt (diskGetD s2.disk m3.fileId) m3.fileOffset =
              .record (.set k2 v3) := A.pres _ _ _ hdec3
          have hv : v4 = v3 := by
            rw [hdecS2] at hdec3b
            injection hdec3b with h5
            injection h5 with h6 h7
          refine ⟨m4, v3, ?_, hdec3, hv ▸ hdecS3, hv ▸ hlen4, hhas4, hgt4, hle4⟩
          rw [alookup, if_neg hk2]
          exact hout4
      · intro p hp
        rcases List.mem_cons.mp hp with rfl | hp2
        · have h1 : m.fileId ∈ s2.readers.files := by
            rw [hs2rd]
            exact hfid
          exact L.cacheSup hs2eq _ h1
        · exact L.cacheMem p hp2
      · intro hveq j hj
        have h1 : j ∈ s2.readers.files := by
          rw [hs2rd]
          exact hsup hveq j hj
        exact L.cacheSup hs2eq j h1

theorem compact_cases (s : KvStore) (hInv : Inv s) :
    ∀ r s5, s.compact = (r, s5) →
      (r = .ok () ∧ Inv s5 ∧ (∀ k2, storeVal s5 k2 = storeVal s k2) ∧
        (∀ k2 m0, alookup s.keyDir k2 = some m0 →
          diskHas s5.disk m0.fileId = false) ∧
        diskHas s5.disk (s.currFileId + 1) = true) ∨
      (r = .err .ioError ∧ Inv s5 ∧ s5.keyDir = s.keyDir ∧ s.keyDir = [] ∧
        (∀ k2, storeVal s5 k2 = storeVal s k2)) := by
  obtain ⟨⟨hw1, hw2, hcap, hids, hnd, hkdnd, hrnd, hrle, hver⟩, hkd, hco⟩ := hInv
  have hnotHas : diskHas s.disk (s.currFileId + 1) = false := by
    cases h : diskHas s.disk (s.currFileId + 1) with
    | false => rfl
    | true => exact absurd (diskHas_le hids h) (by omega)
  have hcreate : createNewDataFile s = (.ok (),
      { s with
          currFileId := s.currFileId + 1
          disk := diskCreate s.disk (s.currFileId + 1)
          pos := 0 }) := by
    simp only [createNewDataFile]
    rw [if_neg]
    rw [hnotHas]
    simp
  -- the rolled-to state
  set s1 : KvStore :=
    { s with
        currFileId := s.currFileId + 1
        disk := diskCreate s.disk (s.currFileId + 1)
        pos := 0 } with hs1def
  have hs1get : diskGetD s1.disk s1.currFileId = [] := by
    simp only [hs1def]
    simp [diskGetD, alookup_create_self hnotHas]
  have hw1s1 : diskHas s1.disk s1.currFileId = true := diskHas_create_self hnotHas
  have hw2s1 : s1.pos = fileSize (diskGetD s1.disk s1.currFileId) := by
    rw [hs1get]
    rfl
  have hcaps1 : ∀ p ∈ s1.disk, fileSize p.2 ≤ MAX_DATA_FILE_SIZE := by
    intro p hp
    rcases List.mem_append.mp hp with hp2 | hp2
    · exact hcap p hp2
    · rw [List.mem_singleton] at hp2
      subst hp2
      exact Nat.zero_le _
  have hidss1 : ∀ p ∈ s1.disk, p.1 ≤ s1.currFileId := by
    intro p hp
    rcases List.mem_append.mp hp with hp2 | hp2
    · have := hids p hp2
      simp only [hs1def]
      omega
    · rw [List.mem_singleton] at hp2
      subst hp2
      simp [hs1def]
  have hnds1 : (s1.disk.map Prod.fst).Nodup := nodup_keys_create hnd hnotHas
  have hvals1 : ∀ p ∈ s1.keyDir,
      metaOkB s1.disk p.1 p.2 = true ∧ p.2.fileId ≤ s.currFileId := by
    intro p hp
    have h1 := hkd p hp
    refine ⟨metaOkB_mono h1 diskPres_create diskHasPres_create, ?_⟩
    obtain ⟨v, _, _, hhas⟩ := metaOkB_elim h1
    exact diskHas_le hids hhas
  have hcgs1 : ∀ fid ∈ s1.readers.files,
      s1.readers.localVersion = s1.globalVersion →
      diskHas s1.disk fid = true ∧ fid ≤ s.currFileId := by
    intro fid hf hveq
    rcases hco with ⟨_, hlive⟩ | ⟨hlt, _⟩
    · exact ⟨diskHasPres_create fid (hlive fid hf), hrle fid hf⟩
    · simp only [hs1def] at hveq
      exact absurd hveq (by omega)
  obtain ⟨out, s3, hloop, L⟩ :=
    compactLoop_ok s.currFileId s.keyDir s1 hvals1 (by simp [hs1def]) hw1s1 hw2s1
      hcaps1 hidss1 hnds1 hver hrnd hcgs1
  have hcurr13 : s.currFileId + 1 ≤ s3.currFileId := L.currMono
  have hkeys3 : out.map Prod.fst = s.keyDir.map Prod.fst := L.keys
  by_cases hgood : ∀ fid ∈ s3.readers.files,
      diskHas s3.disk fid = true ∧ fid ≤ s.currFileId
  · -- the deletion loop succeeds
    obtain ⟨s4, hdel, hD1, hD2, hD3, hD4, hD5, hD6, hD7, hD8, hD9, hD10⟩ :=
      deleteFiles_ok s3.readers.files s3 L.cacheNd (fun fid h => (hgood fid h).1)
        L.ndIds
    have hprotect : ∀ fid, s.currFileId < fid →
        alookup s4.disk fid = alookup s3.disk fid := by
      intro fid hgt
      refine hD2 fid ?_
      intro hmem
      exact absurd (hgood fid hmem).2 (by omega)
    have hcomp : s.compact = (.ok (),
        { s4 with
            globalVersion := s4.globalVersion + 1
            keyDir := out
            uselessSize := 0 }) := by
      simp only [KvStore.compact, hcreate, hloop, hdel]
    intro r s5 hr
    rw [hcomp] at hr
    rw [Prod.mk.injEq] at hr
    obtain ⟨hr1, hr2⟩ := hr
    subst hr1
    subst hr2
    left
    have hfresh : diskHas s4.disk (s.currFileId + 1) = true := by
      unfold diskHas
      rw [hprotect _ (by omega)]
      exact L.hasPres _ hw1s1
    have hcurfile : alookup s4.disk s3.currFileId = alookup s3.disk s3.currFileId :=
      hprotect _ (by omega)
    refine ⟨rfl, ⟨⟨?_, ?_, ?_, ?_, hD4, ?_, ?_, ?_, ?_⟩, ?_, ?_⟩, ?_, ?_, hfresh⟩
    · -- writer file exists
      dsimp only
      rw [hD5]
      unfold diskHas
      rw [hcurfile]
      exact L.w1
    · dsimp only
      rw [hD5, hD6]
      unfold diskGetD
      rw [hcurfile]
      exact L.w2
    · intro p hp
      exact L.cap p (hD3 p hp)
    · intro p hp
      dsimp only
      rw [hD5]
      exact L.ids p (hD3 p hp)
    · dsimp only
      rw [hkeys3]
      exact hkdnd
    · dsimp only
      rw [hD8]
      exact L.cacheNd
    · intro fid hf
      dsimp only at hf ⊢
      rw [hD8] at hf
      rw [hD5]
      have := (hgood fid hf).2
      omega
    · dsimp only
      rw [hD8, hD9]
      have := L.lv
      omega
    · -- KeyDirOk
      intro p hp
      dsimp only at hp ⊢
      have hndout : (out.map Prod.fst).Nodup := by
        rw [hkeys3]
        exact hkdnd
      have hpk : p.1 ∈ s.keyDir.map Prod.fst := by
        rw [← hkeys3]
        exact List.mem_map.mpr ⟨p, hp, rfl⟩
      obtain ⟨m0, hm0⟩ := exists_alookup_of_mem_keys hpk
      obtain ⟨m2, v, hout2, _, hdecS3, hlen2, hhas2, hgt2, hle2⟩ := L.valid p.1 m0 hm0
      have hpm2 : p.2 = m2 := by
        have h2 := alookup_of_mem hndout hp
        rw [hout2] at h2
        injection h2 with h2
        exact h2.symm
      subst hpm2
      refine metaOkB_intro (v := v) ?_ hlen2 ?_
      · unfold diskGetD
        rw [hprotect _ (by omega)]
        exact hdecS3
      · unfold diskHas
        rw [hprotect _ (by omega)]
        exact hhas2
    · -- CacheOk: the cache is now stale and every cached file was deleted
      right
      dsimp only
      rw [hD8, hD9]
      refine ⟨by have := L.lv; omega, ?_⟩
      intro fid hf
      exact hD1 fid hf
    · -- storeVal preserved
      intro k2
      cases hlk : alookup s.keyDir k2 with
      | none =>
        have h1 : alookup out k2 = none := by
          rw [alookup_eq_none, hkeys3]
          exact alookup_eq_none.mp hlk
        rw [storeVal_none hlk, storeVal_none (s := _) h1]
      | some m0 =>
        have hmok0 := hkd (k2, m0) (mem_of_alookup hlk)
        obtain ⟨v0, hdec0, _, _⟩ := metaOkB_elim hmok0
        obtain ⟨m2, v, hout2, hdecS1, hdecS3, hlen2, hhas2, hgt2, hle2⟩ :=
          L.valid k2 m0 hlk
        have hdec0b : decodeAt (diskGetD s1.disk m0.fileId) m0.fileOffset =
            .record (.set k2 v0) := diskPres_create _ _ _ hdec0
        have hv : v = v0 := by
          rw [hdecS1] at hdec0b
          injection hdec0b with h5
          injection h5 with h6 h7
        subst hv
        rw [storeVal_some hlk hdec0]
        refine storeVal_some (s := _) (m := m2) (j := k2) hout2 ?_
        unfold diskGetD
        rw [hprotect _ (by omega)]
        exact hdecS3
    · -- every segment holding a pre-compaction live record is deleted
      intro k2 m0 hlk
      have hmem0 : m0.fileId ∈ s3.readers.files := L.cacheMem (k2, m0) (mem_of_alookup hlk)
      exact hD1 _ hmem0
  · -- the deletion loop fails: only reachable with an empty key directory,
    -- a stale cache, and at least one (already deleted) cached file
    have hne : s.keyDir = [] := by
      by_contra hne2
      refine hgood ?_
      intro fid hf
      exact L.cacheGood fid hf (L.cacheCur hne2)
    have hstale : s.readers.localVersion ≠ s.globalVersion := by
      intro hveq
      refine hgood ?_
      intro fid hf
      exact L.cacheGood fid hf (L.lvEq hveq)
    rcases hco with ⟨hveq, _⟩ | ⟨hlt, hdead⟩
    · exact absurd hveq hstale
    have hs3 : s3 = s1 := L.stEq hne
    cases hcf : s.readers.files with
    | nil =>
      refine absurd ?_ hgood
      intro fid hf
      rw [hs3] at hf
      simp only [hs1def] at hf
      rw [hcf] at hf
      simp at hf
    | cons f0 r0 =>
      have hf0le : f0 ≤ s.currFileId := hrle f0 (by rw [hcf]; simp)
      have hf0dead : diskHas s1.disk f0 = false := by
        have h1 : diskHas s.disk f0 = false := hdead f0 (by rw [hcf]; simp)
        simp only [hs1def]
        unfold diskHas at h1 ⊢
        rw [alookup_create_ne (by omega)]
        exact h1
      have hdelErr : deleteFiles s3 s3.readers.files = (.err .ioError, s3) := by
        rw [hs3]
        have hfiles : s1.readers.files = f0 :: r0 := by
          simp only [hs1def]
          exact hcf
        rw [hfiles]
        simp only [deleteFiles]
        rw [if_neg]
        rw [hf0dead]
        simp
      have hcomp : s.compact = (.err .ioError, s3) := by
        simp only [KvStore.compact, hcreate, hloop, hdelErr]
      intro r s5 hr
      rw [hcomp] at hr
      rw [Prod.mk.injEq] at hr
      obtain ⟨hr1, hr2⟩ := hr
      subst hr1
      subst hr2
      right
      rw [hs3]
      have hkds1 : s1.keyDir = s.keyDir := rfl
      have hvalnone : ∀ k2, storeVal s1 k2 = storeVal s k2 := by
        intro k2
        have h1 : alookup s.keyDir k2 = none := by
          rw [hne]
          rfl
        rw [storeVal_none h1, storeVal_none (s := s1) h1]
      refine ⟨rfl, ⟨⟨hw1s1, hw2s1, hcaps1, hidss1, hnds1, ?_, hrnd, ?_, hver⟩, ?_, ?_⟩,
        hkds1, hne, hvalnone⟩
      · rw [hkds1]
        exact hkdnd
      · intro fid hf
        have := hrle fid hf
        simp only [hs1def]
        omega
      · intro p hp
        rw [hkds1, hne] at hp
        simp at hp
      · right
        refine ⟨hlt, ?_⟩
        intro fid hf
        have h1 : diskHas s.disk fid = false := hdead fid hf
        have h2 : fid ≤ s.currFileId := hrle fid hf
        simp only [hs1def]
        unfold diskHas at h1 ⊢
        rw [alookup_create_ne (by omega)]
        exact h1

theorem cacheOk_after_append {s s2 : KvStore} {c : Command} {m2 : CommandMeta}
    (hco : CacheOk s) (hw1 : diskHas s.disk s.currFileId = true)
    (hrle : ∀ fid ∈ s.readers.files, fid ≤ s.currFileId)
    (A : AppendOk s c m2 s2) : CacheOk s2 := by
  rcases hco with ⟨hveq, hlive⟩ | ⟨hlt, hdead⟩
  · left
    rw [A.rd, A.gv]
    refine ⟨hveq, ?_⟩
    intro fid hf
    exact A.hasPres fid (hlive fid hf)
  · right
    rw [A.rd, A.gv]
    refine ⟨hlt, ?_⟩
    intro fid hf
    have hle : fid ≤ s.currFileId := hrle fid hf
    have hdf : diskHas s.disk fid = false := hdead fid hf
    by_cases hfm : fid = m2.fileId
    · exfalso
      have h1 : m2.fileId = s2.currFileId := A.fid
      have h2 : s.currFileId ≤ s2.currFileId := A.currMono
      have h3 : fid = s.currFileId := by omega
      rw [h3] at hdf
      rw [hw1] at hdf
      simp at hdf
    · unfold diskHas
      rw [A.other fid hfm]
      exact hdf

theorem upsert_state_ok (s s2 : KvStore) (k v : String) (m2 : CommandMeta)
    (hInv : Inv s) (A : AppendOk s (.set k v) m2 s2) (u : Nat) :
    Inv { s2 with keyDir := (aupsert s2.keyDir k m2).2, uselessSize := u } ∧
    storeVal { s2 with keyDir := (aupsert s2.keyDir k m2).2, uselessSize := u } k
      = some v ∧
    (∀ k2, k2 ≠ k →
      storeVal { s2 with keyDir := (aupsert s2.keyDir k m2).2, uselessSize := u } k2
        = storeVal s k2) ∧
    (aupsert s2.keyDir k m2).2 ≠ [] := by
  obtain ⟨⟨hw1, hw2, hcap, hids, hnd, hkdnd, hrnd, hrle, hver⟩, hkd, hco⟩ := hInv
  have hkdeq : s2.keyDir = s.keyDir := A.kd
  have hm2ok : metaOkB s2.disk k m2 = true := by
    refine metaOkB_intro A.dec A.len ?_
    rw [A.fid]
    exact A.w1
  refine ⟨⟨⟨A.w1, A.w2, A.cap, A.ids, A.ndIds, ?_, ?_, ?_, ?_⟩, ?_, ?_⟩, ?_, ?_, ?_⟩
  · dsimp only
    rw [hkdeq]
    exact nodup_keys_aupsert hkdnd
  · dsimp only
    rw [A.rd]
    exact hrnd
  · intro fid hf
    dsimp only at hf ⊢
    rw [A.rd] at hf
    have h1 := hrle fid hf
    have h2 := A.currMono
    omega
  · dsimp only
    rw [A.rd, A.gv]
    exact hver
  · -- KeyDirOk
    intro p hp
    dsimp only at hp ⊢
    rcases mem_aupsert hp with rfl | hp2
    · exact hm2ok
    · rw [hkdeq] at hp2
      exact metaOkB_mono (hkd p hp2) A.pres A.hasPres
  · -- CacheOk ignores the key directory and useless counter
    have h9 : CacheOk s2 := cacheOk_after_append hco hw1 hrle A
    exact h9
  · -- the new key reads back
    refine storeVal_some (m := m2) (j := k) ?_ A.dec
    dsimp only
    exact alookup_aupsert_self
  · -- other keys unchanged
    intro k2 hk2
    have hlk2 : alookup (aupsert s2.keyDir k m2).2 k2 = alookup s.keyDir k2 := by
      rw [alookup_aupsert_ne hk2, hkdeq]
    cases hlk : alookup s.keyDir k2 with
    | none =>
      rw [storeVal_none hlk, storeVal_none (s := _)]
      dsimp only
      rw [hlk2]
      exact hlk
    | some m0 =>
      obtain ⟨v0, hdec0, _, _⟩ := metaOkB_elim (hkd (k2, m0) (mem_of_alookup hlk))
      rw [storeVal_some hlk hdec0]
      refine storeVal_some (s := _) (m := m0) (j := k2) ?_ ?_
      · dsimp only
        rw [hlk2]
        exact hlk
      · dsimp only
        exact A.pres _ _ _ hdec0
  · -- nonempty: the freshly inserted key is present
    intro hempty
    have h1 : alookup (aupsert s2.keyDir k m2).2 k = some m2 := alookup_aupsert_self
    rw [hempty] at h1
    simp [alookup] at h1

theorem set_cases (s : KvStore) (k v : String) (hInv : Inv s) :
    ∀ r s4, s.set k v = (r, s4) →
      (r = .panicked ∧ ¬ encLen (.set k v) ≤ MAX_DATA_FILE_SIZE) ∨
      (r = .ok () ∧ Inv s4 ∧ storeVal s4 k = some v ∧
        ∀ k2, k2 ≠ k → storeVal s4 k2 = storeVal s k2) := by
  intro r s4 h
  by_cases hlen : encLen (.set k v) ≤ MAX_DATA_FILE_SIZE
  · obtain ⟨⟨hw1, hw2, hcap, hids, hnd, hkdnd, hrnd, hrle, hver⟩, hkd, hco⟩ := hInv
    obtain ⟨m2, s2, happ, A⟩ := appendLog_ok s (.set k v) hw1 hw2 hcap hids hnd hlen
    obtain ⟨hInv3, hval3, hpres3, hne3⟩ :=
      upsert_state_ok s s2 k v m2
        ⟨⟨hw1, hw2, hcap, hids, hnd, hkdnd, hrnd, hrle, hver⟩, hkd, hco⟩ A
        (s2.uselessSize + (match (aupsert s2.keyDir k m2).1 with
          | some m0 => m0.len
          | none => 0))
    simp only [KvStore.set, happ] at h
    split at h
    · -- compaction triggered
      rcases compact_cases _ hInv3 _ _ h with
        ⟨hr, hInv4, hsv4, _, _⟩ | ⟨_, _, _, hempty, _⟩
      · subst hr
        right
        refine ⟨rfl, hInv4, ?_, ?_⟩
        · rw [hsv4 k]
          exact hval3
        · intro k2 hk2
          rw [hsv4 k2]
          exact hpres3 k2 hk2
      · exact absurd hempty hne3
    · rw [Prod.mk.injEq] at h
      obtain ⟨hr, hs⟩ := h
      subst hr
      subst hs
      right
      exact ⟨rfl, hInv3, hval3, hpres3⟩
  · left
    rw [KvStore.set.eq_def, appendLog_panicked hlen] at h
    rw [Prod.mk.injEq] at h
    exact ⟨h.1.symm, hlen⟩

theorem remove_cases (s : KvStore) (k : String) (hInv : Inv s) :
    ∀ r s4, s.remove k = (r, s4) →
      (alookup s.keyDir k = none ∧ r = .err .removeNonexistKey ∧ s4 = s) ∨
      ((alookup s.keyDir k).isSome = true ∧ (r = .ok () ∨ r = .err .ioError) ∧
        Inv s4 ∧ storeVal s4 k = none ∧
        (∀ k2, k2 ≠ k → storeVal s4 k2 = storeVal s k2)) := by
  intro r s4 h
  rcases hrm : aremove s.keyDir k with ⟨o, kd1⟩
  have hfst := aremove_fst (l := s.keyDir) (x := k)
  rw [hrm] at hfst
  cases o with
  | none =>
    left
    simp only [KvStore.remove, hrm] at h
    rw [Prod.mk.injEq] at h
    exact ⟨hfst.symm, h.1.symm, h.2.symm⟩
  | some m0 =>
    obtain ⟨⟨hw1, hw2, hcap, hids, hnd, hkdnd, hrnd, hrle, hver⟩, hkd, hco⟩ := hInv
    have hlk : alookup s.keyDir k = some m0 := hfst.symm
    have hmk := hkd (k, m0) (mem_of_alookup hlk)
    dsimp only at hmk
    obtain ⟨v0, hdec0, hlen0, hhas0⟩ := metaOkB_elim hmk
    have hfmem : (m0.fileId, diskGetD s.disk m0.fileId) ∈ s.disk := by
      unfold diskHas at hhas0
      cases hl : alookup s.disk m0.fileId with
      | none => simp [hl] at hhas0
      | some f => simpa [diskGetD, hl] using mem_of_alookup hl
    have hencset : encLen (.set k v0) ≤ MAX_DATA_FILE_SIZE := by
      have h1 := decodeAt_record_size_le hdec0
      have h2 := hcap _ hfmem
      dsimp only at h2
      omega
    have henc : encLen (.rm k) ≤ MAX_DATA_FILE_SIZE := by
      have h3 : 2 ≤ jsonStrLen v0 := jsonStrLen_ge
      simp only [encLen] at hencset ⊢
      omega
    have hkd1 : kd1 = (aremove s.keyDir k).2 := by rw [hrm]
    have hkd1nd : (kd1.map Prod.fst).Nodup := by
      rw [hkd1]
      exact nodup_keys_aremove hkdnd
    obtain ⟨mR, s2, happ, A⟩ :=
      appendLog_ok { s with keyDir := kd1, uselessSize := s.uselessSize + m0.len }
        (.rm k) hw1 hw2 hcap hids hnd henc
    have hkdeq : s2.keyDir = kd1 := A.kd
    have hInv2 : Inv s2 := by
      refine ⟨⟨A.w1, A.w2, A.cap, A.ids, A.ndIds, ?_, ?_, ?_, ?_⟩, ?_, ?_⟩
      · rw [hkdeq]
        exact hkd1nd
      · rw [A.rd]
        exact hrnd
      · intro fid hf
        rw [A.rd] at hf
        have h1 := hrle fid hf
        have h2 := A.currMono
        dsimp only at h2
        omega
      · rw [A.rd, A.gv]
        exact hver
      · intro p hp
        rw [hkdeq, hkd1] at hp
        exact metaOkB_mono (hkd p (mem_aremove hp)) A.pres A.hasPres
      · have hco1 : CacheOk
            { s with keyDir := kd1, uselessSize := s.uselessSize + m0.len } := hco
        exact cacheOk_after_append hco1 hw1 hrle A
    have hval2 : storeVal s2 k = none := by
      refine storeVal_none ?_
      rw [hkdeq, hkd1]
      exact alookup_aremove_self hkdnd
    have hpres2 : ∀ k2, k2 ≠ k → storeVal s2 k2 = storeVal s k2 := by
      intro k2 hk2
      have hlk2 : alookup s2.keyDir k2 = alookup s.keyDir k2 := by
        rw [hkdeq, hkd1]
        exact alookup_aremove_ne hk2
      cases hlk3 : alookup s.keyDir k2 with
      | none =>
        rw [storeVal_none hlk3, storeVal_none (by rw [hlk2]; exact hlk3)]
      | some m1 =>
        obtain ⟨v1, hdec1, _, _⟩ := metaOkB_elim (hkd (k2, m1) (mem_of_alookup hlk3))
        rw [storeVal_some hlk3 hdec1]
        exact storeVal_some (m := m1) (j := k2) (by rw [hlk2]; exact hlk3)
          (A.pres _ _ _ hdec1)
    simp only [KvStore.remove, hrm, happ] at h
    split at h
    · rcases compact_cases _ hInv2 _ _ h with
        ⟨hr, hInv4, hsv4, _, _⟩ | ⟨hr, hInv4, _, _, hsv4⟩
      · subst hr
        right
        refine ⟨by rw [hlk]; rfl, Or.inl rfl, hInv4, ?_, ?_⟩
        · rw [hsv4 k]
          exact hval2
        · intro k2 hk2
          rw [hsv4 k2]
          exact hpres2 k2 hk2
      · subst hr
        right
        refine ⟨by rw [hlk]; rfl, Or.inr rfl, hInv4, ?_, ?_⟩
        · rw [hsv4 k]
          exact hval2
        · intro k2 hk2
          rw [hsv4 k2]
          exact hpres2 k2 hk2
    · rw [Prod.mk.injEq] at h
      obtain ⟨hr, hs⟩ := h
      subst hr
      subst hs
      right
      exact ⟨by rw [hlk]; rfl, Or.inl rfl, hInv2, hval2, hpres2⟩


theorem storeVal_congr {s s2 : KvStore} (h1 : s2.keyDir = s.keyDir)
    (h2 : s2.disk = s.disk) (k : String) : storeVal s2 k = storeVal s k := by
  simp [storeVal, h1, h2]

theorem runOp_cases (s : KvStore) (op : Op) (k : String) (hInv : Inv s) :
    ∀ r s2, runOp s op = (r, s2) →
      r = .panicked ∨
      (Inv s2 ∧ (touchesKey op k = false → storeVal s2 k = storeVal s k)) := by
  intro r s2 h
  cases op with
  | setO k2 v =>
    rcases set_cases s k2 v hInv r s2 h with ⟨hr, _⟩ | ⟨hr, hInv2, hval, hpres⟩
    · exact Or.inl hr
    · refine Or.inr ⟨hInv2, ?_⟩
      intro ht
      simp only [touchesKey, beq_eq_false_iff_ne] at ht
      exact hpres k (fun he => ht he.symm)
  | rmO k2 =>
    rcases remove_cases s k2 hInv r s2 h with ⟨_, _, hs⟩ | ⟨_, _, hInv2, hval, hpres⟩
    · subst hs
      exact Or.inr ⟨hInv, fun _ => rfl⟩
    · refine Or.inr ⟨hInv2, ?_⟩
      intro ht
      simp only [touchesKey, beq_eq_false_iff_ne] at ht
      exact hpres k (fun he => ht he.symm)
  | getO k2 =>
    obtain ⟨s3, hget, hInv3, hdisk, hkd, _, _, _, _⟩ := get_ok s k2 hInv
    simp only [runOp, hget] at h
    rw [Prod.mk.injEq] at h
    obtain ⟨hr, hs⟩ := h
    subst hr
    subst hs
    exact Or.inr ⟨hInv3, fun _ => storeVal_congr hkd hdisk k⟩

theorem runSeq_inv : ∀ (ops : List Op) (s s2 : KvStore), Inv s →
    runSeq s ops = some s2 → Inv s2
  | [], s, s2 => by
    intro hInv h
    simp only [runSeq] at h
    injection h with h
    subst h
    exact hInv
  | op :: rest, s, s2 => by
    intro hInv h
    rcases hop : runOp s op with ⟨r, s3⟩
    rcases runOp_cases s op "" hInv r s3 hop with hr | ⟨hInv3, _⟩
    · subst hr
      simp only [runSeq, hop] at h
      exact Option.noConfusion h
    · cases r with
      | panicked =>
        simp only [runSeq, hop] at h
        exact Option.noConfusion h
      | ok a =>
        simp only [runSeq, hop] at h
        exact runSeq_inv rest s3 s2 hInv3 h
      | err e =>
        simp only [runSeq, hop] at h
        exact runSeq_inv rest s3 s2 hInv3 h

theorem runSeq_preserve (k : String) : ∀ (ops : List Op) (s s2 : KvStore), Inv s →
    (∀ op ∈ ops, touchesKey op k = false) →
    runSeq s ops = some s2 → storeVal s2 k = storeVal s k
  | [], s, s2 => by
    intro _ _ h
    simp only [runSeq] at h
    injection h with h
    subst h
    rfl
  | op :: rest, s, s2 => by
    intro hInv hops h
    rcases hop : runOp s op with ⟨r, s3⟩
    rcases runOp_cases s op k hInv r s3 hop with hr | ⟨hInv3, hpres⟩
    · subst hr
      simp only [runSeq, hop] at h
      exact Option.noConfusion h
    · have hval : storeVal s3 k = storeVal s k := hpres (hops op (by simp))
      have hrest : ∀ op2 ∈ rest, touchesKey op2 k = false := by
        intro op2 hop2
        exact hops op2 (List.mem_cons_of_mem _ hop2)
      cases r with
      | panicked =>
        simp only [runSeq, hop] at h
        exact Option.noConfusion h
      | ok a =>
        simp only [runSeq, hop] at h
        rw [runSeq_preserve k rest s3 s2 hInv3 hrest h]
        exact hval
      | err e =>
        simp only [runSeq, hop] at h
        rw [runSeq_preserve k rest s3 s2 hInv3 hrest h]
        exact hval

set_option maxRecDepth 4000

theorem initStore_inv : Inv initStore := by decide

theorem reachable_inv {s : KvStore} (h : Reachable s) : Inv s := by
  obtain ⟨ops, hops⟩ := h
  exact runSeq_inv ops initStore s initStore_inv hops


theorem storeVal_none_of_inv {s : KvStore} {k : String} (hInv : Inv s)
    (hnone : storeVal s k = none) : alookup s.keyDir k = none := by
  obtain ⟨_, hkd, _⟩ := hInv
  cases hlk : alookup s.keyDir k with
  | none => rfl
  | some m =>
    obtain ⟨v, hdec, _, _⟩ := metaOkB_elim (hkd (k, m) (mem_of_alookup hlk))
    rw [storeVal_some hlk hdec] at hnone
    exact Option.noConfusion hnone

theorem remove_absent {s : KvStore} {k : String}
    (h : alookup s.keyDir k = none) :
    s.remove k = (.err .removeNonexistKey, s) := by
  rcases hrm : aremove s.keyDir k with ⟨o, kd1⟩
  have hfst := aremove_fst (l := s.keyDir) (x := k)
  rw [hrm] at hfst
  cases o with
  | none => simp only [KvStore.remove, hrm]
  | some m0 =>
    rw [h] at hfst
    exact Option.noConfusion hfst

theorem runSeq_preserve_none (k : String) : ∀ (ops : List Op) (s s2 : KvStore),
    Inv s → storeVal s k = none →
    (∀ op ∈ ops, setsKey op k = false) →
    runSeq s ops = some s2 → storeVal s2 k = none
  | [], s, s2 => by
    intro _ hnone _ h
    simp only [runSeq] at h
    injection h with h
    subst h
    exact hnone
  | op :: rest, s, s2 => by
    intro hInv hnone hops h
    rcases hop : runOp s op with ⟨r, s3⟩
    have hrest : ∀ op2 ∈ rest, setsKey op2 k = false := by
      intro op2 hop2
      exact hops op2 (List.mem_cons_of_mem _ hop2)
    have hstep : r = .panicked ∨ (Inv s3 ∧ storeVal s3 k = none) := by
      cases op with
      | setO k2 v =>
        have hk2 : (k2 == k) = false := hops (.setO k2 v) (by simp)
        rw [beq_eq_false_iff_ne] at hk2
        rcases set_cases s k2 v hInv r s3 hop with ⟨hr, _⟩ | ⟨hr, hInv3, _, hpres⟩
        · exact Or.inl hr
        · refine Or.inr ⟨hInv3, ?_⟩
          rw [hpres k (fun he => hk2 he.symm)]
          exact hnone
      | rmO k2 =>
        by_cases hk2 : k2 = k
        · subst hk2
          have hlk : alookup s.keyDir k2 = none := storeVal_none_of_inv hInv hnone
          have : runOp s (.rmO k2) = (.err .removeNonexistKey, s) := remove_absent hlk
          rw [this] at hop
          rw [Prod.mk.injEq] at hop
          obtain ⟨hr, hs⟩ := hop
          subst hr
          subst hs
          exact Or.inr ⟨hInv, hnone⟩
        · rcases remove_cases s k2 hInv r s3 hop with ⟨_, _, hs⟩ | ⟨_, _, hInv3, _, hpres⟩
          · subst hs
            exact Or.inr ⟨hInv, hnone⟩
          · refine Or.inr ⟨hInv3, ?_⟩
            rw [hpres k (fun he => hk2 he.symm)]
            exact hnone
      | getO k2 =>
        obtain ⟨s4, hget, hInv4, hdisk, hkd2, _, _, _, _⟩ := get_ok s k2 hInv
        simp only [runOp, hget] at hop
        rw [Prod.mk.injEq] at hop
        obtain ⟨hr, hs⟩ := hop
        subst hr
        subst hs
        refine Or.inr ⟨hInv4, ?_⟩
        rw [storeVal_congr hkd2 hdisk k]
        exact hnone
    rcases hstep with hr | ⟨hInv3, hnone3⟩
    · subst hr
      simp only [runSeq, hop] at h
      exact Option.noConfusion h
    · cases r with
      | panicked =>
        simp only [runSeq, hop] at h
        exact Option.noConfusion h
      | ok a =>
        simp only [runSeq, hop] at h
        exact runSeq_preserve_none k rest s3 s2 hInv3 hnone3 hrest h
      | err e =>
        simp only [runSeq, hop] at h
        exact runSeq_preserve_none k rest s3 s2 hInv3 hnone3 hrest h

/-- C1: sequential read-your-writes on one handle.  For every reachable store,
after `set k v` returns Ok, every subsequent `get k` on the handle returns
`Ok (Some v)` as long as no operation in between writes the key (a successful
`Set(k,_)` or `Rm(k)`; under the invariant a Set or Rm of `k` that executes
without panicking always succeeds, so "no write of k" is exactly the claim's
"until another Set(k,_) or Rm(k) returns Ok"). -/
theorem c1_read_your_writes (pre ops : List Op) (s s1 s2 : KvStore) (k v : String)
    (hpre : runSeq initStore pre = some s)
    (hset : s.set k v = (.ok (), s1))
    (hops : ∀ op ∈ ops, touchesKey op k = false)
    (hrun : runSeq s1 ops = some s2) :
    (s2.get k).1 = .ok (some v) := by
  have hInv := runSeq_inv pre initStore s initStore_inv hpre
  rcases set_cases s k v hInv _ _ hset with ⟨hr, _⟩ | ⟨_, hInv1, hval1, _⟩
  · exact absurd hr (by simp)
  · have hInv2 := runSeq_inv ops s1 s2 hInv1 hrun
    have hval2 := runSeq_preserve k ops s1 s2 hInv1 hops hrun
    obtain ⟨s3, hget, _⟩ := get_ok s2 k hInv2
    rw [hget]
    dsimp only
    rw [hval2, hval1]

/-- C1 witness: a concrete instance of the read-your-writes theorem. -/
theorem c1_read_your_writes_witness :
    (((runSeq ((initStore.set "k" "v").2) [Op.getO "a"]).getD initStore).get "k").1
      = .ok (some "v") :=
  c1_read_your_writes [] [Op.getO "a"] initStore ((initStore.set "k" "v").2)
    ((runSeq ((initStore.set "k" "v").2) [Op.getO "a"]).getD initStore) "k" "v"
    rfl (by decide) (by decide) (by decide)

/-- C2: remove semantics.  Removing a key absent from the key directory
returns the `RemoveNonexistKey` error with the store completely unchanged (no
record appended, key directory and useless-bytes counter untouched); and after
`remove k` returns Ok on a reachable store, `get k` returns `Ok None` until a
subsequent `Set(k,_)`. -/
theorem c2_remove_semantics :
    (∀ (s : KvStore) (k : String), alookup s.keyDir k = none →
      s.remove k = (.err .removeNonexistKey, s)) ∧
    (∀ (pre ops : List Op) (s s1 s2 : KvStore) (k : String),
      runSeq initStore pre = some s →
      s.remove k = (.ok (), s1) →
      (∀ op ∈ ops, setsKey op k = false) →
      runSeq s1 ops = some s2 →
      (s2.get k).1 = .ok none) := by
  constructor
  · intro s k h
    exact remove_absent h
  · intro pre ops s s1 s2 k hpre hrm hops hrun
    have hInv := runSeq_inv pre initStore s initStore_inv hpre
    rcases remove_cases s k hInv _ _ hrm with ⟨_, hr, _⟩ | ⟨_, _, hInv1, hnone1, _⟩
    · exact absurd hr.symm (by simp)
    · have hInv2 := runSeq_inv ops s1 s2 hInv1 hrun
      have hnone2 := runSeq_preserve_none k ops s1 s2 hInv1 hnone1 hops hrun
      obtain ⟨s3, hget, _⟩ := get_ok s2 k hInv2
      rw [hget]
      dsimp only
      rw [hnone2]

/-- C2 witness: concrete instances of both halves of the remove-semantics
theorem. -/
theorem c2_remove_semantics_witness :
    initStore.remove "k" = (.err .removeNonexistKey, initStore) ∧
    ((((oneSetStore.remove "k").2).get "k").1 = .ok none) :=
  ⟨c2_remove_semantics.1 initStore "k" rfl,
   c2_remove_semantics.2 [Op.setO "k" "v"] [] oneSetStore
     ((oneSetStore.remove "k").2) ((oneSetStore.remove "k").2) "k"
     (by decide) (by decide) (by decide) rfl⟩

/-- C3: compaction is an identity on the observable key-to-value mapping.
For every reachable engine state, if `compact` returns Ok then `get` returns
the same result for every key immediately after the compaction as immediately
before it. -/
theorem c3_compaction_preserves_get (s s2 : KvStore) (hreach : Reachable s)
    (hok : s.compact = (.ok (), s2)) :
    ∀ k, (s2.get k).1 = (s.get k).1 := by
  intro k
  have hInv := reachable_inv hreach
  rcases compact_cases s hInv _ _ hok with
    ⟨_, hInv2, hsv, _, _⟩ | ⟨hr, _, _, _, _⟩
  · obtain ⟨s3, hget2, _⟩ := get_ok s2 k hInv2
    obtain ⟨s4, hget1, _⟩ := get_ok s k hInv
    rw [hget1, hget2]
    dsimp only
    rw [hsv k]
  · exact absurd hr (by simp)

/-- C3 witness: a concrete compaction on a reachable store, checked at one
key. -/
theorem c3_compaction_preserves_get_witness :
    (((oneSetStore.compact).2).get "k").1 = (oneSetStore.get "k").1 :=
  c3_compaction_preserves_get oneSetStore ((oneSetStore.compact).2)
    ⟨[Op.setO "k" "v"], by decide⟩ (by decide) "k"

/-- C4 counterexample: compaction does not delete every old segment.  After
seventeen 512-byte overwrites of one key, segments `0.dat` and `2.dat` contain
only dead records and were never opened by the handle's readers; a compaction
that returns Ok deletes only the cached segment holding the live record, and
both old segments remain on disk afterwards. -/
theorem c4_compact_leaves_old_segment :
    runSeq initStore (fillOps 17) = some c4Pre ∧
    diskHas c4Pre.disk 0 = true ∧ diskHas c4Pre.disk 2 = true ∧
    (c4Pre.compact).1 = .ok () ∧
    diskHas ((c4Pre.compact).2).disk 0 = true ∧
    diskHas ((c4Pre.compact).2).disk 2 = true := by decide

/-- C4 amended: after a compaction returns Ok on a reachable store, every
segment referenced by a pre-compaction key-directory entry has been deleted
(those segments are exactly the ones read, and therefore cached, during the
rewrite loop); old segments never opened by the handle's readers may remain on
disk. -/
theorem c4_compact_deletes_referenced_segments (s s2 : KvStore)
    (hreach : Reachable s) (hok : s.compact = (.ok (), s2)) :
    ∀ k m, alookup s.keyDir k = some m → diskHas s2.disk m.fileId = false := by
  have hInv := reachable_inv hreach
  rcases compact_cases s hInv _ _ hok with
    ⟨_, _, _, hdel, _⟩ | ⟨hr, _, _, _, _⟩
  · exact hdel
  · exact absurd hr (by simp)

/-- C4 witness: the segment holding the live record of a one-key store is
gone after compaction. -/
theorem c4_compact_deletes_referenced_segments_witness :
    diskHas ((oneSetStore.compact).2).disk 0 = false :=
  c4_compact_deletes_referenced_segments oneSetStore ((oneSetStore.compact).2)
    ⟨[Op.setO "k" "v"], by decide⟩ (by decide) "k" ⟨0, 0, 31⟩ (by decide)

/-- C5: `KvStore::open` iterates `fs::read_dir` directly and does not sort the
segment files, so the rebuilt key directory depends on the filesystem
enumeration order.  With `1.dat` enumerated before `0.dat`, the directory maps
the key to the older record in segment 0 ("old"), not the most recent record
in segment 1 ("new"); replaying in ascending order yields "new". -/
theorem c5_open_replay_order_dependent :
    storeVal (KvStore.open
      [(1, [Command.set "k" "new"]), (0, [Command.set "k" "old"])]) "k"
      = some "old" ∧
    ((KvStore.open
      [(1, [Command.set "k" "new"]), (0, [Command.set "k" "old"])]).get "k").1
      = .ok (some "old") ∧
    storeVal (KvStore.open
      [(0, [Command.set "k" "old"]), (1, [Command.set "k" "new"])]) "k"
      = some "new" := by decide

/-- C6: segment cap invariant.  For every operation sequence started from an
empty directory, no segment file ever exceeds `MAX_DATA_FILE_SIZE`; and a
record never straddles a segment boundary: whenever appending would exceed the
cap, the writer rolls and the record is written at offset 0 of the fresh
segment. -/
theorem c6_segment_cap :
    (∀ (ops : List Op) (s : KvStore), runSeq initStore ops = some s →
      ∀ p ∈ s.disk, fileSize p.2 ≤ MAX_DATA_FILE_SIZE) ∧
    (∀ (s : KvStore) (c : Command) (m : CommandMeta) (s2 : KvStore),
      appendLog s c = (.ok m, s2) →
      encLen c + s.pos > MAX_DATA_FILE_SIZE → m.fileOffset = 0) := by
  constructor
  · intro ops s hrun p hp
    obtain ⟨⟨_, _, hcap, _⟩, _, _⟩ := runSeq_inv ops initStore s initStore_inv hrun
    exact hcap p hp
  · intro s c m s2 h hroll
    exact ((appendLog_shape h).1 hroll).2

/-- C6 witness: the cap holds on the opened empty store, and a concrete
overflowing append lands at offset 0. -/
theorem c6_segment_cap_witness :
    fileSize ([] : List Command) ≤ MAX_DATA_FILE_SIZE ∧
    (CommandMeta.mk 2 0 31).fileOffset = 0 :=
  ⟨c6_segment_cap.1 [] initStore rfl (0, []) (by decide),
   c6_segment_cap.2 eightSetStore (.set "k" "v") ⟨2, 0, 31⟩
     ((appendLog eightSetStore (.set "k" "v")).2) (by decide) (by decide)⟩

/-- C7 counterexample: rolling does not increment the segment id by one.
Eight 512-byte records fill segment 0 exactly; the ninth append rolls, and the
current file id jumps from 0 to 2 (`append_log` increments once and
`create_new_data_file` increments again), so `1.dat` is never created. -/
theorem c7_roll_skips_an_id :
    (runSeq initStore (fillOps 8)).map (fun s => s.currFileId) = some 0 ∧
    (runSeq initStore (fillOps 9)).map
      (fun s => (s.currFileId, diskHas s.disk 1)) = some (2, false) := by decide

/-- C7 amended: a roll inside `append_log` advances the current segment id by
exactly two (the intermediate id is skipped), while the fresh segment created
at the start of a successful compaction has id equal to the previous current
id plus one and is present on disk afterwards. -/
theorem c7_roll_increments_by_two :
    (∀ (s : KvStore) (c : Command) (m : CommandMeta) (s2 : KvStore),
      appendLog s c = (.ok m, s2) →
      encLen c + s.pos > MAX_DATA_FILE_SIZE →
      s2.currFileId = s.currFileId + 2) ∧
    (∀ (s s2 : KvStore), Reachable s → s.compact = (.ok (), s2) →
      diskHas s2.disk (s.currFileId + 1) = true) := by
  constructor
  · intro s c m s2 h hroll
    exact ((appendLog_shape h).1 hroll).1
  · intro s s2 hreach hok
    rcases compact_cases s (reachable_inv hreach) _ _ hok with
      ⟨_, _, _, _, hfresh⟩ | ⟨hr, _, _, _, _⟩
    · exact hfresh
    · exact absurd hr (by simp)

/-- C7 witness: a concrete roll advancing the id from 0 to 2, and a concrete
compaction whose fresh segment is `1.dat`. -/
theorem c7_roll_increments_by_two_witness :
    ((appendLog eightSetStore (.set "k" "v")).2).currFileId
      = eightSetStore.currFileId + 2 ∧
    diskHas ((oneSetStore.compact).2).disk (oneSetStore.currFileId + 1) = true :=
  ⟨c7_roll_increments_by_two.1 eightSetStore (.set "k" "v") ⟨2, 0, 31⟩
     ((appendLog eightSetStore (.set "k" "v")).2) (by decide) (by decide),
   c7_roll_increments_by_two.2 oneSetStore ((oneSetStore.compact).2)
     ⟨[Op.setO "k" "v"], by decide⟩ (by decide)⟩

/-- C8: under the key-directory invariant, a Get of a key present in the index
decodes a Set record at the recorded placement and returns its value; the
`unreachable!()` branches of `Readers::read_value` (end of file, or an Rm
record) are never executed — the result is `Ok`, never the modelled panic. -/
theorem c8_get_never_hits_unreachable (s : KvStore) (k : String)
    (m : CommandMeta) (hInv : Inv s) (hm : alookup s.keyDir k = some m) :
    ∃ v s2, decodeAt (diskGetD s.disk m.fileId) m.fileOffset = .record (.set k v) ∧
      s.get k = (.ok (some v), s2) := by
  obtain ⟨v, hdec, _, _⟩ := metaOkB_elim (hInv.2.1 (k, m) (mem_of_alookup hm))
  obtain ⟨s2, hget, _⟩ := get_ok s k hInv
  rw [storeVal_some hm hdec] at hget
  exact ⟨v, s2, hdec, hget⟩

/-- C8 witness: a concrete one-entry store. -/
theorem c8_get_never_hits_unreachable_witness :
    ∃ v s2, decodeAt (diskGetD oneSetStore.disk 0) 0 = .record (.set "k" v) ∧
      oneSetStore.get "k" = (.ok (some v), s2) :=
  c8_get_never_hits_unreachable oneSetStore "k" ⟨0, 0, 31⟩ (by decide) (by decide)

/-- C9 counterexample: not every `ThreadPool` implementation rejects a
zero-sized pool.  `NaiveThreadPool::new(0)` returns Ok (the count is only a
capacity hint), so the claim as stated fails. -/
theorem c9_naive_pool_accepts_zero :
    naiveNew 0 = .ok ⟨[]⟩ ∧ naiveNew 0 ≠ .err .zeroSizedPool := by decide

/-- C9 amended: only `SharedQueueThreadPool::new` enforces the contract —
`new(0)` fails with `ZeroSizedPool` and `new(n)` for `n > 0` constructs a pool
of `n` workers; `NaiveThreadPool::new` and `RayonThreadPool::new` succeed for
every thread count, including zero. -/
theorem c9_pool_construction :
    sharedQueueNew 0 = .err .zeroSizedPool ∧
    (∀ n, 0 < n → ∃ p, sharedQueueNew n = .ok p ∧ p.workers.length = n) ∧
    (∀ n, ∃ p, naiveNew n = .ok p) ∧
    (∀ n, ∃ p, rayonNew n = .ok p) := by
  refine ⟨rfl, ?_, fun n => ⟨⟨[]⟩, rfl⟩, fun n => ⟨⟨n⟩, rfl⟩⟩
  intro n hn
  refine ⟨⟨(List.range n).map WorkerHandle.mk⟩, ?_, by simp⟩
  simp only [sharedQueueNew]
  rw [if_neg (by omega)]

/-- C9 witness: the shared-queue pool with three workers. -/
theorem c9_pool_construction_witness :
    ∃ p, sharedQueueNew 3 = .ok p ∧ p.workers.length = 3 :=
  c9_pool_construction.2.1 3 (by decide)

/-- C10: `KvsClient::new` unwraps the result of `TcpStream::connect_timeout`
(2-second timeout), so a connection failure panics the caller instead of
returning an `Err` value — the return type `Self` has no error alternative —
while `KvsClient::request` reports write and decode failures through the
`Result` type. -/
theorem c10_client_new_panics :
    (∀ e, kvsClientNew (.err e) = .panicked) ∧
    (∀ conn, kvsClientNew (.ok conn) = .client conn) ∧
    (∀ e d, kvsClientRequest (.err e) d = .err e) ∧
    (∀ d, kvsClientRequest (.ok ()) d = d) :=
  ⟨fun _ => rfl, fun _ => rfl, fun _ _ => rfl, fun _ => rfl⟩

end Kvs
